import Mathlib

/-!
Verification of the beadplot core of covizu (`covizu/beadplot.py`).

The Python code manipulates `Bio.Phylo` clade objects in place, keyed by
object identity in a child-to-parent dictionary.  We embed a clade as a
rose tree carrying a numeric identity surrogate `nid` (Python object
identity), and translate the in-place mutations of `collapse_polytomies`,
`annotate_tree` and `serialize_tree` into pure state-passing functions.
Fallible Python operations (comparing `None` with a float, a missing dict
key, indexing past the end of a list) are modelled with `Except Err`.
Branch lengths and support values are modelled as rationals: the Python
floats are only compared, rounded and passed through, never combined
arithmetically.
-/

set_option synthInstance.maxSize 512

/-- Python runtime errors that the modelled code can raise. -/
inductive Err : Type where
  | typeError : Err
  | keyError : Err
  | indexError : Err
deriving DecidableEq

/-- A `Bio.Phylo` clade: identity surrogate, `name`, `branch_length`,
`confidence`, `labels` (set by `annotate_tree`, absent / `[]` before) and
the ordered child list `clades`. -/
inductive PClade : Type where
  | mk : Nat → Option String → Option ℚ → Option ℚ → List String → List PClade → PClade

def PClade.nid : PClade → Nat
  | .mk i _ _ _ _ _ => i

def PClade.name : PClade → Option String
  | .mk _ n _ _ _ _ => n

def PClade.branch_length : PClade → Option ℚ
  | .mk _ _ b _ _ _ => b

def PClade.confidence : PClade → Option ℚ
  | .mk _ _ _ c _ _ => c

def PClade.labels : PClade → List String
  | .mk _ _ _ _ lb _ => lb

def PClade.clades : PClade → List PClade
  | .mk _ _ _ _ _ cs => cs

@[simp] theorem PClade.nid_mk (i n b c lb cs) : (PClade.mk i n b c lb cs).nid = i := rfl
@[simp] theorem PClade.name_mk (i n b c lb cs) : (PClade.mk i n b c lb cs).name = n := rfl
@[simp] theorem PClade.branch_length_mk (i n b c lb cs) :
    (PClade.mk i n b c lb cs).branch_length = b := rfl
@[simp] theorem PClade.confidence_mk (i n b c lb cs) :
    (PClade.mk i n b c lb cs).confidence = c := rfl
@[simp] theorem PClade.labels_mk (i n b c lb cs) : (PClade.mk i n b c lb cs).labels = lb := rfl
@[simp] theorem PClade.clades_mk (i n b c lb cs) : (PClade.mk i n b c lb cs).clades = cs := rfl

/-- Simultaneous induction over a clade and over child lists. -/
theorem pclade_ind (motive : PClade → Prop) (motiveL : List PClade → Prop)
    (h1 : ∀ i n b c lb cs, motiveL cs → motive (.mk i n b c lb cs))
    (h2 : motiveL [])
    (h3 : ∀ c cs, motive c → motiveL cs → motiveL (c :: cs)) :
    ∀ t, motive t :=
  fun t => @PClade.rec motive motiveL h1 h2 h3 t

/-- Forest version of `pclade_ind`. -/
theorem pclade_indL (motive : PClade → Prop) (motiveL : List PClade → Prop)
    (h1 : ∀ i n b c lb cs, motiveL cs → motive (.mk i n b c lb cs))
    (h2 : motiveL [])
    (h3 : ∀ c cs, motive c → motiveL cs → motiveL (c :: cs)) :
    ∀ cs, motiveL cs := by
  intro cs
  induction cs with
  | nil => exact h2
  | cons c cs ih => exact h3 c cs (pclade_ind motive motiveL h1 h2 h3 c) ih

mutual
/-- Structural equality test for clades (used only to decide equalities in
concrete computations). -/
def pcladeBEq : PClade → PClade → Bool
  | .mk i n b c lb cs => fun u =>
    match u with
    | .mk i2 n2 b2 c2 lb2 cs2 =>
      decide (i = i2) && decide (n = n2) && decide (b = b2) && decide (c = c2) &&
        decide (lb = lb2) && pcladeBEqL cs cs2
/-- Forest version of `pcladeBEq`. -/
def pcladeBEqL : List PClade → List PClade → Bool
  | [] => fun ds => ds.isEmpty
  | x :: xs => fun ds =>
    match ds with
    | [] => false
    | y :: ys => pcladeBEq x y && pcladeBEqL xs ys
end

theorem pcladeBEq_iff : ∀ t u, pcladeBEq t u = true ↔ t = u := by
  refine pclade_ind
    (fun t => ∀ u, pcladeBEq t u = true ↔ t = u)
    (fun cs => ∀ ds, pcladeBEqL cs ds = true ↔ cs = ds) ?_ ?_ ?_
  · intro i n b c lb cs ih u
    cases u with
    | mk i2 n2 b2 c2 lb2 cs2 =>
      rw [pcladeBEq]
      simp only [Bool.and_eq_true, decide_eq_true_eq, PClade.mk.injEq]
      rw [ih cs2]
      tauto
  · intro ds
    cases ds with
    | nil => exact ⟨fun _ => rfl, fun _ => rfl⟩
    | cons d ds => exact ⟨fun h => (nomatch h), fun h => (nomatch h)⟩
  · intro c cs ihc ihcs ds
    cases ds with
    | nil => exact ⟨fun h => (nomatch h), fun h => (nomatch h)⟩
    | cons d ds =>
      rw [pcladeBEqL]
      simp only [Bool.and_eq_true, List.cons.injEq]
      rw [ihc d, ihcs ds]

instance : DecidableEq PClade :=
  fun t u => decidable_of_iff (pcladeBEq t u = true) (pcladeBEq_iff t u)

deriving instance DecidableEq for Except

mutual
/-- Number of nodes in a subtree (used for termination measures). -/
def csize : PClade → Nat
  | .mk _ _ _ _ _ cs => 1 + csizeL cs
/-- Number of nodes in a forest. -/
def csizeL : List PClade → Nat
  | [] => 0
  | c :: cs => csize c + csizeL cs
end

@[simp] theorem csize_mk (i n b c lb cs) : csize (.mk i n b c lb cs) = 1 + csizeL cs := by
  rw [csize]

@[simp] theorem csizeL_nil : csizeL [] = 0 := by rw [csizeL]

@[simp] theorem csizeL_cons (c cs) : csizeL (c :: cs) = csize c + csizeL cs := by rw [csizeL]

theorem csize_eq (t : PClade) : csize t = 1 + csizeL t.clades := by
  cases t; simp

theorem csize_pos (t : PClade) : 0 < csize t := by
  cases t; simp

theorem csizeL_append (l₁ l₂ : List PClade) : csizeL (l₁ ++ l₂) = csizeL l₁ + csizeL l₂ := by
  induction l₁ with
  | nil => simp
  | cons c cs ih => simp [ih]; ring

theorem csize_le_of_mem {x : PClade} {cs : List PClade} (h : x ∈ cs) : csize x ≤ csizeL cs := by
  induction cs with
  | nil => cases h
  | cons c cs ih =>
    rcases List.mem_cons.mp h with h | h
    · rw [h]; simp
    · have := ih h; simp; omega

mutual
/-- All nodes of a subtree, the node itself first, in preorder. -/
def allNodes : PClade → List PClade
  | .mk i n b c lb cs => .mk i n b c lb cs :: forestNodes cs
/-- All nodes of a forest, in preorder. -/
def forestNodes : List PClade → List PClade
  | [] => []
  | c :: cs => allNodes c ++ forestNodes cs
end

theorem allNodes_eq (t : PClade) : allNodes t = t :: forestNodes t.clades := by
  cases t; rw [allNodes]; rfl

@[simp] theorem forestNodes_nil : forestNodes [] = [] := by rw [forestNodes]

@[simp] theorem forestNodes_cons (c cs) :
    forestNodes (c :: cs) = allNodes c ++ forestNodes cs := by rw [forestNodes]

theorem self_mem_allNodes (t : PClade) : t ∈ allNodes t := by
  rw [allNodes_eq]; exact List.mem_cons_self _ _

theorem forestNodes_append (l₁ l₂ : List PClade) :
    forestNodes (l₁ ++ l₂) = forestNodes l₁ ++ forestNodes l₂ := by
  induction l₁ with
  | nil => simp
  | cons c cs ih => simp [ih]

theorem mem_forestNodes_of_mem {c : PClade} {cs : List PClade} (h : c ∈ cs) :
    c ∈ forestNodes cs := by
  induction cs with
  | nil => cases h
  | cons d ds ih =>
    rcases List.mem_cons.mp h with h | h
    · subst h; simp [self_mem_allNodes]
    · simp [ih h]

theorem allNodes_subset_forestNodes {c : PClade} {cs : List PClade} (h : c ∈ cs) :
    ∀ x ∈ allNodes c, x ∈ forestNodes cs := by
  intro x hx
  induction cs with
  | nil => cases h
  | cons d ds ih =>
    rcases List.mem_cons.mp h with h | h
    · subst h; simp [hx]
    · simp [ih h]

theorem forest_allNodes_trans {x : PClade} :
    ∀ ds, ∀ c, x ∈ allNodes c → c ∈ forestNodes ds → x ∈ forestNodes ds := by
  refine pclade_indL
    (fun t => ∀ c, x ∈ allNodes c → c ∈ allNodes t → x ∈ allNodes t)
    (fun ds => ∀ c, x ∈ allNodes c → c ∈ forestNodes ds → x ∈ forestNodes ds)
    ?_ ?_ ?_
  · intro i n b cf lb cs ih c hx hc
    rw [allNodes_eq] at hc
    simp only [PClade.clades_mk] at hc
    rcases List.mem_cons.mp hc with hc | hc
    · rw [hc] at hx; exact hx
    · rw [allNodes_eq]
      simp only [PClade.clades_mk]
      exact List.mem_cons.mpr (Or.inr (ih c hx hc))
  · intro c hx hc; cases hc
  · intro d ds ihd ihds c hx hc
    simp only [forestNodes_cons, List.mem_append] at hc ⊢
    rcases hc with hc | hc
    · exact Or.inl (ihd c hx hc)
    · exact Or.inr (ihds c hx hc)

theorem allNodes_trans {x : PClade} :
    ∀ t, ∀ c, x ∈ allNodes c → c ∈ allNodes t → x ∈ allNodes t := by
  refine pclade_ind
    (fun t => ∀ c, x ∈ allNodes c → c ∈ allNodes t → x ∈ allNodes t)
    (fun ds => ∀ c, x ∈ allNodes c → c ∈ forestNodes ds → x ∈ forestNodes ds)
    ?_ ?_ ?_
  · intro i n b cf lb cs ih c hx hc
    rw [allNodes_eq] at hc
    simp only [PClade.clades_mk] at hc
    rcases List.mem_cons.mp hc with hc | hc
    · rw [hc] at hx; exact hx
    · rw [allNodes_eq]
      simp only [PClade.clades_mk]
      exact List.mem_cons.mpr (Or.inr (ih c hx hc))
  · intro c hx hc; cases hc
  · intro d ds ihd ihds c hx hc
    simp only [forestNodes_cons, List.mem_append] at hc ⊢
    rcases hc with hc | hc
    · exact Or.inl (ihd c hx hc)
    · exact Or.inr (ihds c hx hc)

theorem mem_forestNodes_trans {x c : PClade} {cs : List PClade}
    (hx : x ∈ forestNodes c.clades) (hc : c ∈ forestNodes cs) : x ∈ forestNodes cs := by
  refine forest_allNodes_trans cs c ?_ hc
  rw [allNodes_eq]
  exact List.mem_cons.mpr (Or.inr hx)

theorem csize_le_of_mem_allNodes {x : PClade} :
    ∀ t, x ∈ allNodes t → csize x ≤ csize t := by
  refine pclade_ind
    (fun t => x ∈ allNodes t → csize x ≤ csize t)
    (fun ds => x ∈ forestNodes ds → csize x ≤ csizeL ds)
    ?_ ?_ ?_
  · intro i n b cf lb cs ih hx
    rw [allNodes_eq] at hx
    simp only [PClade.clades_mk] at hx
    rcases List.mem_cons.mp hx with hx | hx
    · rw [hx]
    · have := ih hx; simp; omega
  · intro hx; cases hx
  · intro d ds ihd ihds hx
    simp only [forestNodes_cons, List.mem_append] at hx
    rcases hx with hx | hx
    · have := ihd hx; simp; omega
    · have := ihds hx; simp; omega

theorem csize_le_of_mem_forest {x : PClade} {cs : List PClade} (h : x ∈ forestNodes cs) :
    csize x ≤ csizeL cs := by
  induction cs with
  | nil => cases h
  | cons c cs ih =>
    simp only [forestNodes_cons, List.mem_append] at h
    rcases h with h | h
    · have := csize_le_of_mem_allNodes c h; simp; omega
    · have := ih h; simp; omega

/-- Identity surrogates of all nodes of a subtree. -/
def allIds (t : PClade) : List Nat := (allNodes t).map PClade.nid

/-- Identity surrogates of all nodes of a forest. -/
def forestIds (cs : List PClade) : List Nat := (forestNodes cs).map PClade.nid

/-- Python `s.split('|')` on the underlying character list: splits at every
bar, keeping empty pieces, and yields `[[]]` on the empty string, exactly
like `str.split` with an explicit separator. -/
def splitBarL : List Char → List (List Char)
  | [] => [[]]
  | c :: cs =>
    match splitBarL cs with
    | [] => [[]]
    | h :: t => if c = '|' then [] :: h :: t else (c :: h) :: t

theorem splitBarL_ne_nil (l : List Char) : splitBarL l ≠ [] := by
  cases l with
  | nil => simp [splitBarL]
  | cons c cs =>
    rw [splitBarL]
    rcases h : splitBarL cs with _ | ⟨h', t⟩
    · simp
    · by_cases hc : c = '|' <;> simp [hc]

/-- Python `s.split('|')` for strings. -/
def pySplit (s : String) : List String := (splitBarL s.data).map List.asString

/-- Components of an optional name: `none` has no components, a string
contributes its `split('|')` fields. -/
def nameComps : Option String → List String
  | none => []
  | some s => pySplit s

theorem splitBarL_append (a b : List Char) :
    splitBarL (a ++ '|' :: b) = splitBarL a ++ splitBarL b := by
  induction a with
  | nil =>
    rw [List.nil_append, splitBarL]
    rcases h : splitBarL b with _ | ⟨h', t⟩
    · exact absurd h (splitBarL_ne_nil b)
    · simp [splitBarL, h]
  | cons c cs ih =>
    rw [List.cons_append, splitBarL, ih, splitBarL]
    rcases h : splitBarL cs with _ | ⟨h', t⟩
    · exact absurd h (splitBarL_ne_nil cs)
    · by_cases hc : c = '|' <;> simp [hc]

theorem pySplit_append (a b : String) :
    pySplit (a ++ "|" ++ b) = pySplit a ++ pySplit b := by
  have h : (a ++ "|" ++ b).data = a.data ++ '|' :: b.data := by
    simp [String.data_append]
  simp [pySplit, h, splitBarL_append]

/-- Python string comparison: lexicographic on code points. -/
def charListLt : List Char → List Char → Bool
  | [], [] => false
  | [], _ :: _ => true
  | _ :: _, [] => false
  | a :: as, b :: bs =>
    if a < b then true else if b < a then false else charListLt as bs

def strLt (a b : String) : Bool := charListLt a.data b.data

/-- Python comparison of two lists of strings (elementwise, shorter prefix
first). -/
def strListLt : List String → List String → Bool
  | [], [] => false
  | [], _ :: _ => true
  | _ :: _, [] => false
  | a :: as, b :: bs =>
    if strLt a b then true else if strLt b a then false else strListLt as bs

/-- Insertion into a list sorted by `strListLt`; models one step of
Python `list.sort()` on lists whose elements compare this way (equal
elements are structurally identical, so any correct sort agrees). -/
def insertLS (x : List String) : List (List String) → List (List String)
  | [] => [x]
  | y :: ys => if strListLt y x then y :: insertLS x ys else x :: y :: ys

/-- Model of Python `list.sort()` on the reversed label tuples. -/
def isortLS : List (List String) → List (List String)
  | [] => []
  | x :: xs => insertLS x (isortLS xs)

/-- The join used when a pruned tip's identity is folded into its parent:
`parent.name = tip.name` when the parent is unnamed, otherwise
`'|'.join([parent.name, tip.name])`, which raises `TypeError` when the tip
name is `None`. -/
def joinName (pn tn : Option String) : Except Err (Option String) :=
  match pn with
  | none => .ok tn
  | some p =>
    match tn with
    | none => .error .typeError
    | some s => .ok (some (p ++ "|" ++ s))

mutual
/-- Pass 1 of `collapse_polytomies` (beadplot.py lines 43-51) at one node:
every terminal child whose `branch_length` is `≤ minlen` is removed from
the child list and its name folded into this node's name; comparing a
`None` branch length with `minlen` raises `TypeError`.  The loop runs over
the snapshot `tree.get_terminals()`, so only nodes terminal in the input
are pruned; the traversal is the preorder of that snapshot. -/
def pruneTips (minlen : ℚ) : PClade → Except Err PClade
  | .mk i n b c lb cs =>
    match pruneList minlen cs n with
    | .error e => .error e
    | .ok (cs', n') => .ok (.mk i n' b c lb cs')
/-- Processes the children of one node for pass 1, threading the parent
name through the tip prunes. -/
def pruneList (minlen : ℚ) : List PClade → Option String → Except Err (List PClade × Option String)
  | [], nm => .ok ([], nm)
  | c :: cs, nm =>
    if c.clades.isEmpty then
      match c.branch_length with
      | none => .error .typeError
      | some b =>
        if minlen < b then
          match pruneList minlen cs nm with
          | .error e => .error e
          | .ok (cs', nm') => .ok (c :: cs', nm')
        else
          match joinName nm c.name with
          | .error e => .error e
          | .ok nm1 => pruneList minlen cs nm1
    else
      match pruneTips minlen c with
      | .error e => .error e
      | .ok c' =>
        match pruneList minlen cs nm with
        | .error e => .error e
        | .ok (cs', nm') => .ok (c' :: cs', nm')
end

/-- Pass 2 eligibility (beadplot.py line 55): a node is spliced out iff it
is non-terminal in the pass-1 output, its branch length is defined and not
greater than `minlen` (the root is handled separately: it is never a child
in an acyclic tree, hence never spliced). -/
def splq (minlen : ℚ) (c : PClade) : Bool :=
  !c.clades.isEmpty &&
    (match c.branch_length with
     | none => false
     | some b => decide (b ≤ minlen))

mutual
/-- The region contribution of one child of a surviving node: the spliced
nodes that merge into that ancestor through this child, in the order pass
2 processes them (the preorder of the pass-1 output restricted to chains
of spliced nodes). -/
def regionOf (minlen : ℚ) : PClade → List PClade
  | .mk i n b c lb cs =>
    if splq minlen (.mk i n b c lb cs) then .mk i n b c lb cs :: regionList minlen cs else []
/-- Forest version of `regionOf`. -/
def regionList (minlen : ℚ) : List PClade → List PClade
  | [] => []
  | c :: cs => regionOf minlen c ++ regionList minlen cs
end

theorem regionOf_eq (minlen : ℚ) (c : PClade) :
    regionOf minlen c = if splq minlen c then c :: regionList minlen c.clades else [] := by
  cases c; rw [regionOf]; rfl

@[simp] theorem regionList_nil (minlen : ℚ) : regionList minlen [] = [] := by rw [regionList]

@[simp] theorem regionList_cons (minlen : ℚ) (c cs) :
    regionList minlen (c :: cs) =
      (if splq minlen c then c :: regionList minlen c.clades else []) ++ regionList minlen cs := by
  rw [regionList, regionOf_eq]

/-- The final child list of a surviving node: the surviving original
children stay in front (`list.remove` keeps relative order), and each
spliced node's children are appended at the end in splice order
(`parent.clades.extend(node.clades)`), minus those spliced later. -/
def survChildren (minlen : ℚ) (cs : List PClade) : List PClade :=
  cs.filter (fun c => !splq minlen c) ++
    (regionList minlen cs).flatMap (fun x => x.clades.filter (fun c => !splq minlen c))

/-- One step of the pass-2 name transfer (beadplot.py lines 63-68): a
spliced node with a truthy name (`if node.name:`) is `|`-joined onto the
current parent name. -/
def spliceNameStep (acc : Option String) (x : PClade) : Option String :=
  match x.name with
  | none => acc
  | some s =>
    if s = "" then acc
    else
      match acc with
      | none => some s
      | some p => some (p ++ "|" ++ s)

/-- Name accumulation at a surviving node during pass 2: every spliced
node of its region is folded in, in splice order. -/
def spliceNameFold (n : Option String) (region : List PClade) : Option String :=
  region.foldl spliceNameStep n

theorem csize_le_of_mem_regionList {minlen : ℚ} {x : PClade} :
    ∀ cs, x ∈ regionList minlen cs → csize x ≤ csizeL cs := by
  have main : ∀ cs, x ∈ regionList minlen cs → csize x ≤ csizeL cs := by
    refine pclade_indL
      (fun c => x ∈ regionOf minlen c → csize x ≤ csize c)
      (fun cs => x ∈ regionList minlen cs → csize x ≤ csizeL cs) ?_ ?_ ?_
    · intro i n b cf lb cs ih h
      rw [regionOf_eq] at h
      by_cases hq : splq minlen (PClade.mk i n b cf lb cs)
      · rw [if_pos hq] at h
        rcases List.mem_cons.mp h with h | h
        · rw [h]
        · have := ih (by simpa using h); simp; omega
      · rw [if_neg hq] at h; cases h
    · intro h; rw [regionList] at h; cases h
    · intro c cs ihc ihcs h
      rw [regionList] at h
      rcases List.mem_append.mp h with h | h
      · have := ihc h; simp; omega
      · have := ihcs h; simp; omega
  exact main

theorem csize_le_of_mem_survChildren {minlen : ℚ} {x : PClade} {cs : List PClade}
    (h : x ∈ survChildren minlen cs) : csize x ≤ csizeL cs := by
  rw [survChildren] at h
  rcases List.mem_append.mp h with h | h
  · exact csize_le_of_mem (List.mem_of_mem_filter h)
  · rcases List.mem_flatMap.mp h with ⟨y, hy, hx⟩
    have h1 := csize_le_of_mem_regionList _ hy
    have h2 := csize_le_of_mem (List.mem_of_mem_filter hx)
    have h3 := csize_eq y
    omega

/-- Pass 2 of `collapse_polytomies` (beadplot.py lines 54-68) as a pure
transformation of the pass-1 output, with an explicit fuel argument so the
definition is structurally recursive: at each surviving node, the spliced
descendants reachable through chains of spliced nodes are excised, their
surviving children are appended to this node's child list in splice order,
and their truthy names are `|`-joined onto this node's name. -/
def splicePassF (minlen : ℚ) : Nat → PClade → PClade
  | 0, t => t
  | fuel + 1, .mk i n b c lb cs =>
    .mk i (spliceNameFold n (regionList minlen cs)) b c lb
      ((survChildren minlen cs).map (splicePassF minlen fuel))

/-- Pass 2 with enough fuel to process the whole tree. -/
def splicePass (minlen : ℚ) (t : PClade) : PClade := splicePassF minlen (csize t) t

theorem splicePassF_fuel_irrel (minlen : ℚ) :
    ∀ f1 f2 t, csize t ≤ f1 → csize t ≤ f2 →
      splicePassF minlen f1 t = splicePassF minlen f2 t := by
  intro f1
  induction f1 with
  | zero => intro f2 t h1 h2; exfalso; have := csize_pos t; omega
  | succ f1 ih =>
    intro f2 t h1 h2
    cases f2 with
    | zero => exfalso; have := csize_pos t; omega
    | succ f2 =>
      cases t with
      | mk i n b c lb cs =>
        rw [splicePassF.eq_def, splicePassF.eq_def]
        simp only []
        congr 1
        apply List.map_congr_left
        intro y hy
        have hle := csize_le_of_mem_survChildren hy
        simp at h1 h2
        exact ih f2 y (by omega) (by omega)

/-- Unfolding equation for `splicePass`. -/
theorem splicePass_eq (minlen : ℚ) (i n b c lb cs) :
    splicePass minlen (.mk i n b c lb cs) =
      .mk i (spliceNameFold n (regionList minlen cs)) b c lb
        ((survChildren minlen cs).map (splicePass minlen)) := by
  rw [splicePass, csize_mk, Nat.add_comm 1 (csizeL cs), splicePassF]
  congr 1
  apply List.map_congr_left
  intro y hy
  have hle := csize_le_of_mem_survChildren hy
  rw [splicePass]
  exact splicePassF_fuel_irrel minlen (csizeL cs) (csize y) y (by omega) (le_refl _)

theorem splicePass_eq_t (minlen : ℚ) (t : PClade) :
    splicePass minlen t =
      .mk t.nid (spliceNameFold t.name (regionList minlen t.clades)) t.branch_length
        t.confidence t.labels ((survChildren minlen t.clades).map (splicePass minlen)) := by
  cases t; rw [splicePass_eq]; rfl

/-- `collapse_polytomies(tree, minlen)` (beadplot.py lines 34-70).  When
the whole tree is a single terminal node, the pass-1 loop examines the
root itself: a `None` branch length raises `TypeError` and a value within
the threshold leads to `parents[tip]`, a `KeyError` (the root has no
parent entry).  Otherwise pass 1 prunes short tips and pass 2 splices out
short internal branches. -/
def collapse_polytomies (minlen : ℚ) (t : PClade) : Except Err PClade :=
  match t.clades with
  | [] =>
    (match t.branch_length with
     | none => .error .typeError
     | some b => if minlen < b then .ok t else .error .keyError)
  | _ :: _ =>
    match pruneTips minlen t with
    | .error e => .error e
    | .ok t1 => .ok (splicePass minlen t1)

mutual
/-- Terminals of a subtree in preorder, as returned by
`tree.get_terminals()`. -/
def termsOf : PClade → List PClade
  | .mk i n b c lb [] => [.mk i n b c lb []]
  | .mk _ _ _ _ _ (d :: ds) => termsOfL (d :: ds)
/-- Terminals of a forest in preorder. -/
def termsOfL : List PClade → List PClade
  | [] => []
  | c :: cs => termsOf c ++ termsOfL cs
end

@[simp] theorem termsOfL_nil : termsOfL [] = [] := by rw [termsOfL]

@[simp] theorem termsOfL_cons (c cs) : termsOfL (c :: cs) = termsOf c ++ termsOfL cs := by
  rw [termsOfL]

theorem termsOf_eq (t : PClade) :
    termsOf t = if t.clades.isEmpty then [t] else termsOfL t.clades := by
  cases t with
  | mk i n b c lb cs =>
    cases cs with
    | nil => rw [termsOf]; rfl
    | cons d ds => rw [termsOf]; rfl

/-- Looking a key up in the label table; a missing key is a Python
`KeyError`. -/
def tableGet (ld : List (String × List String)) (k : String) : Except Err (List String) :=
  match ld.lookup k with
  | some v => .ok v
  | none => .error .keyError

/-- `tip.labels.extend(label_dict[tn]) for tn in tip.name.split('|')`:
concatenates the label lists of the listed identifiers, raising `KeyError`
at the first identifier absent from the table. -/
def lookupConcat (ld : List (String × List String)) : List String → Except Err (List String)
  | [] => .ok []
  | k :: ks =>
    match ld.lookup k with
    | none => .error .keyError
    | some v =>
      match lookupConcat ld ks with
      | .error e => .error e
      | .ok rest => .ok (v ++ rest)

/-- The validation step of `annotate_tree` (beadplot.py lines 94-101): the
set difference between the tip names of the pre-collapse tree and the
table keys is nonempty (an unnamed tip, `None`, is never a table key).
The Python code only reports this through the optional callback and
continues. -/
def mismatchFlag (ld : List (String × List String)) (t : PClade) : Bool :=
  (termsOf t).any (fun tip =>
    match tip.name with
    | none => true
    | some s => (ld.lookup s).isNone)

mutual
/-- The tip-labelling loop of `annotate_tree` (beadplot.py lines 106-113):
every terminal of the collapsed tree gets `labels` from the table; a name
containing `|` is split and the per-identifier lists are concatenated.
`'|' in tip.name` raises `TypeError` when the name is `None`. -/
def annotateTips (ld : List (String × List String)) : PClade → Except Err PClade
  | .mk i n b c _lb [] =>
    (match n with
     | none => .error .typeError
     | some s =>
       if s.data.contains '|' then
         match lookupConcat ld (pySplit s) with
         | .error e => .error e
         | .ok v => .ok (.mk i (some s) b c v [])
       else
         match ld.lookup s with
         | some v => .ok (.mk i (some s) b c v [])
         | none => .error .keyError)
  | .mk i n b c lb (d :: ds) =>
    match annotateTipsL ld (d :: ds) with
    | .error e => .error e
    | .ok cs' => .ok (.mk i n b c lb cs')
/-- Forest version of `annotateTips`. -/
def annotateTipsL (ld : List (String × List String)) : List PClade → Except Err (List PClade)
  | [] => .ok []
  | c :: cs =>
    match annotateTips ld c with
    | .error e => .error e
    | .ok c' =>
      match annotateTipsL ld cs with
      | .error e => .error e
      | .ok cs' => .ok (c' :: cs')
end

mutual
/-- The internal-node loop of `annotate_tree` (beadplot.py lines 115-123):
a non-terminal node with `name is None` is unsampled (`labels = []` and
the name is reset to the empty string); otherwise the name is split on `|`
and the per-identifier label lists are concatenated. -/
def annotateInternals (ld : List (String × List String)) : PClade → Except Err PClade
  | .mk i n b c lb [] => .ok (.mk i n b c lb [])
  | .mk i n b c _lb (d :: ds) =>
    match
      (match n with
       | none => Except.ok ((some ""), ([] : List String))
       | some s =>
         match lookupConcat ld (pySplit s) with
         | .error e => .error e
         | .ok v => .ok  ((some s), v)) with
    | .error e => .error e
    | .ok (n', lb') =>
      match annotateInternalsL ld (d :: ds) with
      | .error e => .error e
      | .ok cs' => .ok (.mk i n' b c lb' cs')
/-- Forest version of `annotateInternals`. -/
def annotateInternalsL (ld : List (String × List String)) :
    List PClade → Except Err (List PClade)
  | [] => .ok []
  | c :: cs =>
    match annotateInternals ld c with
    | .error e => .error e
    | .ok c' =>
      match annotateInternalsL ld cs with
      | .error e => .error e
      | .ok cs' => .ok (c' :: cs')
end

/-- `annotate_tree(tree, label_dict, minlen, callback)` (beadplot.py lines
80-125): validate (soft diagnostic only, returned here as a flag),
collapse, then label the tips and the internal nodes. -/
def annotate_tree (ld : List (String × List String)) (minlen : ℚ) (t : PClade) :
    Except Err (Bool × PClade) :=
  match collapse_polytomies minlen t with
  | .error e => .error e
  | .ok t1 =>
    match annotateTips ld t1 with
    | .error e => .error e
    | .ok t2 =>
      match annotateInternals ld t2 with
      | .error e => .error e
      | .ok t3 => .ok (mismatchFlag ld t, t3)

/-- Breadth-first traversal with explicit fuel: pops the queue head,
yields it and pushes its children at the back, exactly the level-order
iterator of `Bio.Phylo` (`find_clades(order='level')`). -/
def bfsF : Nat → List PClade → List PClade
  | 0, _ => []
  | _ + 1, [] => []
  | fuel + 1, t :: q => t :: bfsF fuel (q ++ t.clades)

/-- Level-order node list of a tree; `csize t` steps of fuel yield every
node exactly once. -/
def levelOrder (t : PClade) : List PClade := bfsF (csize t) [t]

theorem bfsF_enough : ∀ fuel q, csizeL q ≤ fuel → ∀ f2, csizeL q ≤ f2 →
    bfsF fuel q = bfsF f2 q := by
  intro fuel
  induction fuel with
  | zero =>
    intro q hq f2 h2
    cases q with
    | nil => cases f2 <;> simp [bfsF]
    | cons t q => exfalso; have := csize_pos t; simp at hq; omega
  | succ fuel ih =>
    intro q hq f2 h2
    cases q with
    | nil => cases f2 <;> simp [bfsF]
    | cons t q =>
      cases f2 with
      | zero => exfalso; have := csize_pos t; simp at h2; omega
      | succ f2 =>
        rw [bfsF, bfsF]
        have hsz : csizeL (q ++ t.clades) = csizeL q + csizeL t.clades := csizeL_append _ _
        have ht := csize_eq t
        simp at hq h2
        congr 1
        exact ih (q ++ t.clades) (by omega) f2 (by omega)

/-- Python dict update on an association list: an existing key keeps its
position and gets the new value, a fresh key is appended. -/
def dUpdate {κ α : Type} [DecidableEq κ] (m : List (κ × α)) (k : κ) (v : α) :
    List (κ × α) :=
  if m.any (fun p => p.1 = k) then
    m.map (fun p => if p.1 = k then (k, v) else p)
  else m ++ [(k, v)]

/-- `get_parents(tree)` (beadplot.py lines 25-31): level-order walk
recording each child against its parent, keyed by object identity. -/
def get_parents (t : PClade) : List (Nat × Nat) :=
  (levelOrder t).foldl
    (fun parents clade =>
      clade.clades.foldl (fun ps child => dUpdate ps child.nid clade.nid) parents)
    []

/-- Python `round(x, 2)` on exact rationals: round half to even at two
decimal places (the binary-float artifacts of CPython's `round` are not
modelled; the claims never exercise a half-cent tie). -/
def round2 (q : ℚ) : ℚ :=
  let n : Int := q.num * 100
  let d : Nat := q.den
  let f : Int := Int.fdiv n d
  let r : Int := n - f * d
  let rounded : Int :=
    if 2 * r < (d : Int) then f
    else if (d : Int) < 2 * r then f + 1
    else if f % 2 = 0 then f else f + 1
  mkRat rounded 100

/-- The running state of `serialize_tree`: the output node map and edge
list, the node-to-variant map `variant_d` and the unsampled counter. -/
structure SState : Type where
  nodes : List (String × List (List String))
  edges : List (String × String × ℚ × Option ℚ)
  vard : List (Nat × String)
  us : Nat
deriving DecidableEq

/-- One iteration of the serialization loop (beadplot.py lines 140-161)
for the node `nd`: pick the variant identifier (accession of the earliest
reversed label tuple, or `unsampled{N}`), update the node map and
`variant_d`, and emit an edge unless the node is the root.  A reversed
tuple with fewer than four fields raises `IndexError`; `round(None, 2)`
raises `TypeError`; a missing parent raises `KeyError`. -/
def serializeStep (rootId : Nat) (parents : List (Nat × Nat)) (nd : PClade) (st : SState) :
    Except Err SState :=
  match
    (if nd.labels.isEmpty then
      Except.ok ("unsampled" ++ toString st.us, dUpdate st.nodes ("unsampled" ++ toString st.us) [])
    else
      match isortLS (nd.labels.map (fun l => (pySplit l).reverse)) with
      | [] => .error .indexError
      | first :: rest =>
        match first.get? 3 with
        | none => .error .indexError
        | some variant => .ok (variant, dUpdate st.nodes variant (first :: rest))) with
  | .error e => .error e
  | .ok (variant, nodes1) =>
    let us1 := if nd.labels.isEmpty then st.us + 1 else st.us
    let vard1 := dUpdate st.vard nd.nid variant
    if nd.nid = rootId then .ok ⟨nodes1, st.edges, vard1, us1⟩
    else
      match parents.lookup nd.nid with
      | none => .error .keyError
      | some pid =>
        match vard1.lookup pid with
        | none => .error .keyError
        | some pvar =>
          match nd.branch_length with
          | none => .error .typeError
          | some b =>
            .ok ⟨nodes1, st.edges ++ [(pvar, variant, round2 b, nd.confidence)], vard1, us1⟩

/-- The serialization loop over a node list. -/
def serializeGo (rootId : Nat) (parents : List (Nat × Nat)) :
    List PClade → SState → Except Err SState
  | [], st => .ok st
  | nd :: rest, st =>
    match serializeStep rootId parents nd st with
    | .error e => .error e
    | .ok st1 => serializeGo rootId parents rest st1

/-- `serialize_tree(tree)` (beadplot.py lines 128-163) including its full
final state (the returned object keeps only `nodes` and `edges`). -/
def serialize_full (t : PClade) : Except Err SState :=
  serializeGo t.nid (get_parents t) (levelOrder t) ⟨[], [], [], 0⟩

/-- `serialize_tree(tree)`: the emitted object, a node map and an edge
list. -/
def serialize_tree (t : PClade) :
    Except Err (List (String × List (List String)) × List (String × String × ℚ × Option ℚ)) :=
  match serialize_full t with
  | .error e => .error e
  | .ok st => .ok (st.nodes, st.edges)

/-! Concrete inputs used by counterexamples and witnesses. -/

/-- A tip with a short branch (0.2). -/
def exTipB : PClade := .mk 2 (some "B") (some (mkRat 1 5)) none [] []

/-- An internal node with a short branch (0.3) whose only child is the
short tip `exTipB`. -/
def exMidA : PClade := .mk 1 none (some (mkRat 3 10)) none [] [exTipB]

/-- Root of the pass-1/pass-2 interaction example. -/
def exRootT : PClade := .mk 0 none none none [] [exMidA]

/-- `collapse_polytomies` output on `exRootT`: the tip is pruned in pass 1,
which leaves `exMidA` childless, so pass 2 never examines it. -/
def exRootT1 : PClade := .mk 0 none none none [] [.mk 1 (some "B") (some (mkRat 3 10)) none [] []]

/-- Running `collapse_polytomies` again prunes the node left childless by
the first run. -/
def exRootT2 : PClade := .mk 0 (some "B") none none [] []

/-- C5: the spec's variant-identifier example node. -/
def exC5 : PClade :=
  .mk 0 (some "x") none none ["B|acc2|r|c|2021-02-01", "A|acc1|r|c|2021-01-01"] []

/-- C10: two nodes whose earliest samples share the accession `acc1`. -/
def exC10 : PClade :=
  .mk 0 none none none ["A|acc1|r|c|2021-01-01"]
    [.mk 1 none (some (mkRat 1 1)) none ["B|acc1|r|c|2021-02-01"] [],
     .mk 2 none (some (mkRat 1 1)) none ["C|acc9|r|c|2021-03-01"] []]

/-- C6: a tree whose internal node carries the empty-string name. -/
def exC6 : PClade :=
  .mk 0 none none none []
    [.mk 1 (some "") (some (mkRat 1 1)) none [] [.mk 2 (some "T") (some (mkRat 1 1)) none [] []]]

/-- Label table for the C6 counterexample: it covers every tip but has no
entry for the empty string. -/
def exC6ld : List (String × List String) := [("T", ["T|a|r|c|2021-01-01"])]

/-- C3: a tree with a terminal node whose branch length is undefined. -/
def exC3 : PClade := .mk 0 none none none [] [.mk 1 (some "X") none none [] []]

/-- C9: a tree whose root and two internal nodes carry no labels while the
two tips are labelled, so level order meets three label-less nodes. -/
def exC9r : PClade :=
  .mk 0 none none none []
    [.mk 1 none (some (mkRat 1 1)) none []
       [.mk 3 (some "A") (some (mkRat 1 1)) none ["A|a1|r|c|2021-01-01"] []],
     .mk 2 none (some (mkRat 1 1)) none []
       [.mk 4 (some "B") (some (mkRat 1 1)) none ["B|b1|r|c|2021-01-02"] []]]

/-- The serialization state produced by `serialize_full` on `exC9r`: the
three label-less nodes get the identifiers `unsampled0`, `unsampled1`,
`unsampled2` in level order. -/
def exC9st : SState :=
  ⟨[("unsampled0", []), ("unsampled1", []), ("unsampled2", []),
    ("a1", [["2021-01-01", "c", "r", "a1", "A"]]),
    ("b1", [["2021-01-02", "c", "r", "b1", "B"]])],
   [("unsampled0", "unsampled1", mkRat 1 1, none),
    ("unsampled0", "unsampled2", mkRat 1 1, none),
    ("unsampled1", "a1", mkRat 1 1, none),
    ("unsampled2", "b1", mkRat 1 1, none)],
   [(0, "unsampled0"), (1, "unsampled1"), (2, "unsampled2"), (3, "a1"), (4, "b1")],
   3⟩

/-- C1 counterexample.  The claim asserts that after
`collapse(tree, min_len)` every surviving non-root node has
`branch_length > min_len` or an undefined length.  On `exRootT` with
`min_len = 1/2`, pass 1 prunes the tip (0.2 ≤ 1/2) and leaves node 1
childless; pass 2 iterates over `get_nonterminals()` of the mutated tree,
which no longer contains node 1, so node 1 survives with the defined
branch length 0.3 ≤ 1/2. -/
theorem collapse_postcondition_cex :
    collapse_polytomies (mkRat 1 2) exRootT = .ok exRootT1 ∧
    exRootT1.clades = [.mk 1 (some "B") (some (mkRat 3 10)) none [] []] ∧
    (mkRat 3 10 ≤ mkRat 1 2) ∧ mkRat 3 10 > 0 := by
  refine ⟨by decide, by decide, by decide, by decide⟩

/-- C2 counterexample.  Collapsing `exRootT` once yields `exRootT1`, whose
node 1 is now terminal with branch length 0.3 ≤ 1/2; a second run prunes
it, changing the structure (the root loses its only child and absorbs the
name `B`). -/
theorem collapse_not_idempotent_cex :
    collapse_polytomies (mkRat 1 2) exRootT = .ok exRootT1 ∧
    collapse_polytomies (mkRat 1 2) exRootT1 = .ok exRootT2 ∧
    exRootT1.clades.length = 1 ∧ exRootT2.clades.length = 0 ∧
    exRootT1.name = none ∧ exRootT2.name = some "B" := by
  refine ⟨by decide, by decide, by decide, by decide, by decide, by decide⟩

/-- C3 counterexample.  The claim asserts that a terminal node with
`branch_length = None` is treated as zero and folded into its parent
without error; the code instead evaluates `None > minlen`, a Python 3
`TypeError`. -/
theorem collapse_none_tip_cex :
    collapse_polytomies (mkRat 1 2) exC3 = .error .typeError := by decide

/-- C6 counterexample.  The claim asserts that an internal node whose name
is the empty string is treated as unsampled (`labels = []`, no error);
the code only tests `name is None`, so the empty string goes through the
split-and-look-up path, `label_dict['']`, a `KeyError`. -/
theorem annotate_empty_name_cex :
    annotate_tree exC6ld (mkRat 1 2) exC6 = .error .keyError ∧
    (List.lookup "" exC6ld).isNone = true := by
  refine ⟨by decide, by decide⟩

/-- C5: for a node labelled `["B|acc2|r|c|2021-02-01",
"A|acc1|r|c|2021-01-01"]`, serialization splits each label on the bar,
reverses the fields, sorts ascending (ISO dates first), takes index 3 of
the earliest tuple (`acc1`) as the variant identifier, and stores the full
sorted list as its payload. -/
theorem serialize_variant_id_example :
    serialize_tree exC5 =
      .ok ([("acc1", [["2021-01-01", "c", "r", "acc1", "A"],
                      ["2021-02-01", "c", "r", "acc2", "B"]])], []) := by
  decide

/-- C10: nodes 0 and 1 of `exC10` both produce the variant identifier
`acc1`, so the later node silently overwrites the earlier entry in the
node map: three surviving nodes produce a two-entry map, and both edges
reference the shared identifier `acc1` as parent. -/
theorem serialize_duplicate_variant_overwrite :
    serialize_tree exC10 =
      .ok ([("acc1", [["2021-02-01", "c", "r", "acc1", "B"]]),
            ("acc9", [["2021-03-01", "c", "r", "acc9", "C"]])],
           [("acc1", "acc1", mkRat 1 1, none), ("acc1", "acc9", mkRat 1 1, none)]) ∧
    (levelOrder exC10).length = 3 := by
  refine ⟨by decide, by decide⟩

/-! Lemmas about pass 1. -/

theorem joinName_error {pn tn : Option String} {e : Err} (h : joinName pn tn = .error e) :
    e = .typeError := by
  cases pn with
  | none => simp [joinName] at h
  | some p =>
    cases tn with
    | none => simp [joinName] at h; exact h.symm
    | some s => simp [joinName] at h

theorem pruneList_nil (minlen : ℚ) (nm : Option String) :
    pruneList minlen [] nm = .ok ([], nm) := by rw [pruneList]

theorem pruneList_cons_term_none (minlen : ℚ) {c : PClade} (cs : List PClade)
    (nm : Option String) (hterm : c.clades = []) (hb : c.branch_length = none) :
    pruneList minlen (c :: cs) nm = .error .typeError := by
  rw [pruneList]; simp [hterm, hb]

theorem pruneList_cons_term_long (minlen : ℚ) {c : PClade} (cs : List PClade)
    (nm : Option String) {b : ℚ} (hterm : c.clades = []) (hb : c.branch_length = some b)
    (hlt : minlen < b) :
    pruneList minlen (c :: cs) nm =
      match pruneList minlen cs nm with
      | .error e => .error e
      | .ok (cs', nm') => .ok (c :: cs', nm') := by
  rw [pruneList]; simp [hterm, hb, hlt]

theorem pruneList_cons_term_short (minlen : ℚ) {c : PClade} (cs : List PClade)
    (nm : Option String) {b : ℚ} (hterm : c.clades = []) (hb : c.branch_length = some b)
    (hlt : ¬ minlen < b) :
    pruneList minlen (c :: cs) nm =
      match joinName nm c.name with
      | .error e => .error e
      | .ok nm1 => pruneList minlen cs nm1 := by
  rw [pruneList]; simp [hterm, hb, hlt]

theorem pruneList_cons_internal (minlen : ℚ) {c : PClade} (cs : List PClade)
    (nm : Option String) (hterm : c.clades ≠ []) :
    pruneList minlen (c :: cs) nm =
      match pruneTips minlen c with
      | .error e => .error e
      | .ok c' =>
        match pruneList minlen cs nm with
        | .error e => .error e
        | .ok (cs', nm') => .ok (c' :: cs', nm') := by
  rw [pruneList]
  simp [List.isEmpty_iff, hterm]

theorem pruneTips_eq (minlen : ℚ) (t : PClade) :
    pruneTips minlen t =
      match pruneList minlen t.clades t.name with
      | .error e => .error e
      | .ok (cs', n') => .ok (.mk t.nid n' t.branch_length t.confidence t.labels cs') := by
  cases t; rw [pruneTips]; rfl

theorem pruneList_error_typeError (minlen : ℚ) :
    ∀ cs nm e, pruneList minlen cs nm = .error e → e = .typeError := by
  refine pclade_indL
    (fun c => ∀ e, pruneTips minlen c = .error e → e = .typeError)
    (fun cs => ∀ nm e, pruneList minlen cs nm = .error e → e = .typeError) ?_ ?_ ?_
  · intro i n b cf lb cs ih e h
    rw [pruneTips_eq] at h
    simp only [PClade.clades_mk, PClade.name_mk] at h
    rcases hp : pruneList minlen cs n with ep | p
    · rw [hp] at h
      simp at h
      rw [← h]
      exact ih n ep hp
    · rw [hp] at h; cases p; simp at h
  · intro nm e h
    rw [pruneList_nil] at h
    simp at h
  · intro c cs ihc ihcs nm e h
    rcases hterm : c.clades with _ | ⟨d, ds⟩
    · cases hb : c.branch_length with
      | none =>
        rw [pruneList_cons_term_none minlen cs nm hterm hb] at h
        simp at h
        exact h.symm
      | some b =>
        by_cases hlt : minlen < b
        · rw [pruneList_cons_term_long minlen cs nm hterm hb hlt] at h
          rcases hp : pruneList minlen cs nm with ep | p
          · rw [hp] at h; simp at h; rw [← h]; exact ihcs nm ep hp
          · rw [hp] at h; cases p; simp at h
        · rw [pruneList_cons_term_short minlen cs nm hterm hb hlt] at h
          rcases hj : joinName nm c.name with ej | nm1
          · rw [hj] at h; simp at h; rw [← h]; exact joinName_error hj
          · rw [hj] at h; exact ihcs nm1 e h
    · rw [pruneList_cons_internal minlen cs nm (by rw [hterm]; simp)] at h
      rcases hp : pruneTips minlen c with ep | c2
      · rw [hp] at h; simp at h; rw [← h]; exact ihc ep hp
      · rw [hp] at h
        rcases hq : pruneList minlen cs nm with eq2 | p
        · rw [hq] at h; simp at h; rw [← h]; exact ihcs nm eq2 hq
        · rw [hq] at h; cases p; simp at h

theorem pruneTips_error_typeError (minlen : ℚ) (t : PClade) (e : Err)
    (h : pruneTips minlen t = .error e) : e = .typeError := by
  rw [pruneTips_eq] at h
  rcases hp : pruneList minlen t.clades t.name with ep | p
  · rw [hp] at h
    simp at h
    rw [← h]
    exact pruneList_error_typeError minlen t.clades t.name ep hp
  · rw [hp] at h; cases p; simp at h

theorem pruneList_ok_no_none_tip (minlen : ℚ) :
    ∀ cs nm r, pruneList minlen cs nm = .ok r →
      ∀ x ∈ forestNodes cs, x.clades = [] → x.branch_length ≠ none := by
  refine pclade_indL
    (fun c => ∀ r, pruneTips minlen c = .ok r →
      ∀ x ∈ forestNodes c.clades, x.clades = [] → x.branch_length ≠ none)
    (fun cs => ∀ nm r, pruneList minlen cs nm = .ok r →
      ∀ x ∈ forestNodes cs, x.clades = [] → x.branch_length ≠ none) ?_ ?_ ?_
  · intro i n b cf lb cs ih r h x hx hxt
    rw [pruneTips_eq] at h
    simp only [PClade.clades_mk, PClade.name_mk] at h
    rcases hp : pruneList minlen cs n with ep | p
    · rw [hp] at h; simp at h
    · rcases p with ⟨cs2, n2⟩
      exact ih n (cs2, n2) hp x (by simpa using hx) hxt
  · intro nm r h x hx; cases hx
  · intro c cs ihc ihcs nm r h x hx hxt
    simp only [forestNodes_cons, List.mem_append] at hx
    rcases hterm : c.clades with _ | ⟨d, ds⟩
    · cases hb : c.branch_length with
      | none =>
        rw [pruneList_cons_term_none minlen cs nm hterm hb] at h
        simp at h
      | some b =>
        rcases hx with hx | hx
        · rw [allNodes_eq, hterm] at hx
          simp only [forestNodes_nil] at hx
          rcases List.mem_cons.mp hx with hx | hx
          · rw [hx, hb]; simp
          · cases hx
        · by_cases hlt : minlen < b
          · rw [pruneList_cons_term_long minlen cs nm hterm hb hlt] at h
            rcases hp : pruneList minlen cs nm with ep | p
            · rw [hp] at h; simp at h
            · rcases p with ⟨cs2, nm2⟩
              exact ihcs nm (cs2, nm2) hp x hx hxt
          · rw [pruneList_cons_term_short minlen cs nm hterm hb hlt] at h
            rcases hj : joinName nm c.name with ej | nm1
            · rw [hj] at h; simp at h
            · rw [hj] at h
              exact ihcs nm1 r h x hx hxt
    · rw [pruneList_cons_internal minlen cs nm (by rw [hterm]; simp)] at h
      rcases hp : pruneTips minlen c with ep | c2
      · rw [hp] at h; simp at h
      · rw [hp] at h
        rcases hq : pruneList minlen cs nm with eq2 | p
        · rw [hq] at h; simp at h
        · rcases p with ⟨cs2, nm2⟩
          rcases hx with hx | hx
          · rw [allNodes_eq] at hx
            rcases List.mem_cons.mp hx with hx | hx
            · exfalso
              rw [hx, hterm] at hxt
              simp at hxt
            · exact ihc c2 hp x hx hxt
          · exact ihcs nm (cs2, nm2) hq x hx hxt

theorem pruneTips_ok_no_none_tip (minlen : ℚ) (t r : PClade)
    (h : pruneTips minlen t = .ok r) :
    ∀ x ∈ forestNodes t.clades, x.clades = [] → x.branch_length ≠ none := by
  rw [pruneTips_eq] at h
  rcases hp : pruneList minlen t.clades t.name with ep | p
  · rw [hp] at h; simp at h
  · rcases p with ⟨cs2, n2⟩
    intro x hx hxt
    exact pruneList_ok_no_none_tip minlen t.clades t.name (cs2, n2) hp x hx hxt

/-- C3 (amended): a tree containing a terminal node with an undefined
branch length makes `collapse_polytomies` raise `TypeError` — pass 1
compares every terminal's `branch_length` with `minlen`, and in Python 3
`None > float` is a `TypeError`.  The undefined length is not treated as
zero and no folding happens. -/
theorem collapse_none_tip_raises (minlen : ℚ) (t : PClade)
    (h : ∃ x ∈ allNodes t, x.clades = [] ∧ x.branch_length = none) :
    collapse_polytomies minlen t = .error .typeError := by
  rcases h with ⟨x, hx, hxt, hxb⟩
  cases t with
  | mk i n b cf lb cs =>
    cases cs with
    | nil =>
      rw [allNodes_eq] at hx
      simp only [PClade.clades_mk, forestNodes_nil] at hx
      rcases List.mem_cons.mp hx with hx | hx
      · rw [hx] at hxb
        simp only [PClade.branch_length_mk] at hxb
        rw [collapse_polytomies]
        simp [hxb]
      · cases hx
    | cons d ds =>
      rw [collapse_polytomies]
      simp only [PClade.clades_mk, PClade.branch_length_mk]
      rcases hp : pruneTips minlen (.mk i n b cf lb (d :: ds)) with ep | t1
      · have he := pruneTips_error_typeError minlen _ ep hp
        rw [he]
      · exfalso
        rw [allNodes_eq] at hx
        simp only [PClade.clades_mk] at hx
        rcases List.mem_cons.mp hx with hx | hx
        · rw [hx] at hxt
          simp at hxt
        · refine pruneTips_ok_no_none_tip minlen _ t1 hp x ?_ hxt hxb
          simpa using hx

/-! Lemmas about pass 2. -/

theorem splq_false_iff (minlen : ℚ) (y : PClade) :
    splq minlen y = false ↔
      (y.clades = [] ∨ y.branch_length = none ∨
        ∃ b, y.branch_length = some b ∧ minlen < b) := by
  cases y with
  | mk i n b c lb cs =>
    cases b with
    | none => simp [splq]
    | some q =>
      cases cs with
      | nil => simp [splq]
      | cons d ds => simp [splq, not_le]

theorem splq_true_iff (minlen : ℚ) (y : PClade) :
    splq minlen y = true ↔
      (y.clades ≠ [] ∧ ∃ b, y.branch_length = some b ∧ b ≤ minlen) := by
  cases y with
  | mk i n b c lb cs =>
    cases b with
    | none => simp [splq]
    | some q =>
      cases cs with
      | nil => simp [splq]
      | cons d ds => simp [splq]

theorem collapse_leaf (minlen : ℚ) {t : PClade} (h : t.clades = []) :
    collapse_polytomies minlen t =
      match t.branch_length with
      | none => .error .typeError
      | some b => if minlen < b then .ok t else .error .keyError := by
  rw [collapse_polytomies, h]

theorem collapse_node (minlen : ℚ) {t : PClade} {d : PClade} {ds : List PClade}
    (h : t.clades = d :: ds) :
    collapse_polytomies minlen t =
      match pruneTips minlen t with
      | .error e => .error e
      | .ok t1 => .ok (splicePass minlen t1) := by
  rw [collapse_polytomies, h]

theorem mem_regionList_forest {minlen : ℚ} {x : PClade} :
    ∀ cs, x ∈ regionList minlen cs → x ∈ forestNodes cs := by
  refine pclade_indL
    (fun c => x ∈ regionOf minlen c → x ∈ allNodes c)
    (fun cs => x ∈ regionList minlen cs → x ∈ forestNodes cs) ?_ ?_ ?_
  · intro i n b cf lb cs ih h
    rw [regionOf_eq] at h
    by_cases hq : splq minlen (PClade.mk i n b cf lb cs)
    · rw [if_pos hq] at h
      rcases List.mem_cons.mp h with h | h
      · rw [h]; exact self_mem_allNodes _
      · rw [allNodes_eq]
        simp only [PClade.clades_mk] at h ⊢
        exact List.mem_cons.mpr (Or.inr (ih h))
    · rw [if_neg hq] at h; cases h
  · intro h; rw [regionList] at h; cases h
  · intro c cs ihc ihcs h
    rw [regionList] at h
    simp only [forestNodes_cons, List.mem_append] at h ⊢
    rcases h with h | h
    · exact Or.inl (ihc h)
    · exact Or.inr (ihcs h)

theorem mem_survChildren_spec {minlen : ℚ} {x : PClade} {cs : List PClade}
    (h : x ∈ survChildren minlen cs) :
    splq minlen x = false ∧ x ∈ forestNodes cs := by
  rw [survChildren] at h
  rcases List.mem_append.mp h with h | h
  · have hq := List.of_mem_filter h
    simp at hq
    exact ⟨hq, mem_forestNodes_of_mem (List.mem_of_mem_filter h)⟩
  · rcases List.mem_flatMap.mp h with ⟨y, hy, hx⟩
    have hq := List.of_mem_filter hx
    simp at hq
    refine ⟨hq, ?_⟩
    have h1 : x ∈ forestNodes y.clades := mem_forestNodes_of_mem (List.mem_of_mem_filter hx)
    exact mem_forestNodes_trans h1 (mem_regionList_forest cs hy)

theorem splicePass_nid (minlen : ℚ) (t : PClade) : (splicePass minlen t).nid = t.nid := by
  rw [splicePass_eq_t]; simp

theorem splicePass_branch_length (minlen : ℚ) (t : PClade) :
    (splicePass minlen t).branch_length = t.branch_length := by
  rw [splicePass_eq_t]; simp

theorem splicePass_name (minlen : ℚ) (t : PClade) :
    (splicePass minlen t).name = spliceNameFold t.name (regionList minlen t.clades) := by
  rw [splicePass_eq_t]; simp

theorem splicePass_labels (minlen : ℚ) (t : PClade) :
    (splicePass minlen t).labels = t.labels := by
  rw [splicePass_eq_t]; simp

theorem splicePass_confidence (minlen : ℚ) (t : PClade) :
    (splicePass minlen t).confidence = t.confidence := by
  rw [splicePass_eq_t]; simp

theorem splicePass_clades (minlen : ℚ) (t : PClade) :
    (splicePass minlen t).clades = (survChildren minlen t.clades).map (splicePass minlen) := by
  rw [splicePass_eq_t]; simp

theorem splicePass_clades_nil {minlen : ℚ} {t : PClade} (h : t.clades = []) :
    (splicePass minlen t).clades = [] := by
  rw [splicePass_clades, h, survChildren]
  simp

theorem mem_forest_map {f : PClade → PClade} {x : PClade} :
    ∀ l : List PClade, x ∈ forestNodes (l.map f) → ∃ v ∈ l, x ∈ allNodes (f v) := by
  intro l
  induction l with
  | nil => intro h; simp at h
  | cons v vs ih =>
    intro h
    simp only [List.map_cons, forestNodes_cons, List.mem_append] at h
    rcases h with h | h
    · exact ⟨v, List.mem_cons_self _ _, h⟩
    · rcases ih h with ⟨w, hw, hx⟩
      exact ⟨w, List.mem_cons_of_mem _ hw, hx⟩

/-- Every non-root node of the pass-2 output is the pass-2 image of a
non-spliced node of the input. -/
theorem splicePass_forest_spec_aux {minlen : ℚ} :
    ∀ n u, csize u ≤ n → ∀ x, x ∈ forestNodes (splicePass minlen u).clades →
      ∃ y, y ∈ forestNodes u.clades ∧ splq minlen y = false ∧ x = splicePass minlen y := by
  intro n
  induction n with
  | zero => intro u h; exfalso; have := csize_pos u; omega
  | succ n ih =>
    intro u hu x hx
    rw [splicePass_clades] at hx
    rcases mem_forest_map _ hx with ⟨v, hv, hxv⟩
    have hvspec := mem_survChildren_spec hv
    rw [allNodes_eq] at hxv
    rcases List.mem_cons.mp hxv with hxv | hxv
    · exact ⟨v, hvspec.2, hvspec.1, hxv⟩
    · have hsz : csize v ≤ n := by
        have h1 := csize_le_of_mem_survChildren hv
        have h2 := csize_eq u
        omega
      rcases ih v hsz x hxv with ⟨y, hy, hq, hxy⟩
      exact ⟨y, mem_forestNodes_trans hy hvspec.2, hq, hxy⟩

theorem splicePass_forest_spec {minlen : ℚ} {u x : PClade}
    (hx : x ∈ forestNodes (splicePass minlen u).clades) :
    ∃ y, y ∈ forestNodes u.clades ∧ splq minlen y = false ∧ x = splicePass minlen y :=
  splicePass_forest_spec_aux (csize u) u (le_refl _) x hx

/-- Shared post-condition helper: after a successful
`collapse_polytomies`, every node below the root has an undefined branch
length, a branch length above the threshold, or no children. -/
theorem collapse_post_helper {minlen : ℚ} {t t1 : PClade}
    (h : collapse_polytomies minlen t = .ok t1) :
    ∀ x ∈ forestNodes t1.clades,
      x.branch_length = none ∨ (∃ b, x.branch_length = some b ∧ minlen < b) ∨
        x.clades = [] := by
  intro x hx
  rcases hc : t.clades with _ | ⟨d, ds⟩
  · rw [collapse_leaf minlen hc] at h
    cases hb : t.branch_length with
    | none => rw [hb] at h; simp at h
    | some b =>
      simp only [hb] at h
      by_cases hlt : minlen < b
      · rw [if_pos hlt] at h
        simp at h
        rw [← h, hc] at hx
        simp at hx
      · rw [if_neg hlt] at h; simp at h
  · rw [collapse_node minlen hc] at h
    rcases hp : pruneTips minlen t with ep | u
    · rw [hp] at h; simp at h
    · rw [hp] at h
      simp at h
      rw [← h] at hx
      rcases splicePass_forest_spec hx with ⟨y, hy, hq, hxy⟩
      rw [splq_false_iff] at hq
      rcases hq with hq | hq | hq
      · right; right
        rw [hxy]
        exact splicePass_clades_nil hq
      · left
        rw [hxy, splicePass_branch_length, hq]
      · right; left
        rcases hq with ⟨b, hb, hlt⟩
        exact ⟨b, by rw [hxy, splicePass_branch_length, hb], hlt⟩

/-- C1 (amended): after `collapse_polytomies(tree, min_len)` succeeds,
every surviving node other than the root has branch length greater than
`min_len`, or an undefined branch length, or no children at all.  The
spec's stronger claim fails because a node whose children were all pruned
in pass 1 is terminal when pass 2 snapshots `get_nonterminals()`, so its
short defined branch survives (see `collapse_postcondition_cex`). -/
theorem collapse_surviving_lengths (minlen : ℚ) (t t1 : PClade)
    (h : collapse_polytomies minlen t = .ok t1) :
    ∀ x ∈ forestNodes t1.clades,
      x.branch_length = none ∨ (∃ b, x.branch_length = some b ∧ minlen < b) ∨
        x.clades = [] :=
  collapse_post_helper h

/-- C1 witness. -/
theorem collapse_surviving_lengths_witness :
    collapse_polytomies (mkRat 1 2) exRootT = .ok exRootT1 ∧
    (∀ x ∈ forestNodes exRootT1.clades,
      x.branch_length = none ∨ (∃ b, x.branch_length = some b ∧ mkRat 1 2 < b) ∨
        x.clades = []) :=
  ⟨by decide, collapse_surviving_lengths (mkRat 1 2) exRootT exRootT1 (by decide)⟩

/-- Decidable form of "this terminal node has a defined branch length
above the threshold". -/
def tipLongB (minlen : ℚ) (x : PClade) : Bool :=
  match x.branch_length with
  | some b => decide (minlen < b)
  | none => false

theorem tipLongB_iff (minlen : ℚ) (x : PClade) :
    tipLongB minlen x = true ↔ ∃ b, x.branch_length = some b ∧ minlen < b := by
  cases hb : x.branch_length with
  | none => simp [tipLongB, hb]
  | some b => simp [tipLongB, hb]

theorem pruneList_id (minlen : ℚ) :
    ∀ cs, (∀ x ∈ forestNodes cs, x.clades = [] → tipLongB minlen x = true) →
      ∀ nm, pruneList minlen cs nm = .ok (cs, nm) := by
  refine pclade_indL
    (fun c => (∀ x ∈ allNodes c, x.clades = [] → tipLongB minlen x = true) →
      pruneTips minlen c = .ok c)
    (fun cs => (∀ x ∈ forestNodes cs, x.clades = [] → tipLongB minlen x = true) →
      ∀ nm, pruneList minlen cs nm = .ok (cs, nm)) ?_ ?_ ?_
  · intro i n b cf lb cs ih hyp
    have hforest : ∀ x ∈ forestNodes cs, x.clades = [] → tipLongB minlen x = true := by
      intro x hx hxt
      refine hyp x ?_ hxt
      rw [allNodes_eq]
      simp only [PClade.clades_mk]
      exact List.mem_cons_of_mem _ hx
    rw [pruneTips_eq]
    simp only [PClade.clades_mk, PClade.name_mk]
    rw [ih hforest n]
    simp
  · intro _ nm
    exact pruneList_nil minlen nm
  · intro c cs ihc ihcs hyp nm
    have hypc : ∀ x ∈ allNodes c, x.clades = [] → tipLongB minlen x = true := by
      intro x hx hxt
      refine hyp x ?_ hxt
      simp only [forestNodes_cons, List.mem_append]
      exact Or.inl hx
    have hypcs : ∀ x ∈ forestNodes cs, x.clades = [] → tipLongB minlen x = true := by
      intro x hx hxt
      refine hyp x ?_ hxt
      simp only [forestNodes_cons, List.mem_append]
      exact Or.inr hx
    rcases hterm : c.clades with _ | ⟨d, ds⟩
    · have hc := hypc c (self_mem_allNodes c) hterm
      rcases (tipLongB_iff minlen c).mp hc with ⟨b, hb, hlt⟩
      rw [pruneList_cons_term_long minlen cs nm hterm hb hlt, ihcs hypcs nm]
    · rw [pruneList_cons_internal minlen cs nm (by rw [hterm]; simp)]
      rw [ihc hypc, ihcs hypcs nm]

theorem pruneTips_id (minlen : ℚ) (t : PClade)
    (hyp : ∀ x ∈ allNodes t, x.clades = [] → tipLongB minlen x = true) :
    pruneTips minlen t = .ok t := by
  cases t with
  | mk i n b cf lb cs =>
    have hforest : ∀ x ∈ forestNodes cs, x.clades = [] → tipLongB minlen x = true := by
      intro x hx hxt
      refine hyp x ?_ hxt
      rw [allNodes_eq]
      simp only [PClade.clades_mk]
      exact List.mem_cons_of_mem _ hx
    rw [pruneTips_eq]
    simp only [PClade.clades_mk, PClade.name_mk]
    rw [pruneList_id minlen cs hforest n]
    simp

theorem regionList_eq_nil {minlen : ℚ} {cs : List PClade}
    (h : ∀ c ∈ cs, splq minlen c = false) : regionList minlen cs = [] := by
  induction cs with
  | nil => simp
  | cons c cs ih =>
    rw [regionList_cons]
    rw [h c (List.mem_cons_self _ _)]
    simp only [Bool.false_eq_true, if_false, List.nil_append]
    exact ih (fun d hd => h d (List.mem_cons_of_mem _ hd))

theorem survChildren_id {minlen : ℚ} {cs : List PClade}
    (h : ∀ c ∈ cs, splq minlen c = false) : survChildren minlen cs = cs := by
  rw [survChildren, regionList_eq_nil h]
  simp only [List.flatMap_nil, List.append_nil]
  exact List.filter_eq_self.mpr (fun c hc => by rw [h c hc]; rfl)

theorem splicePass_id_aux {minlen : ℚ} :
    ∀ n u, csize u ≤ n → (∀ x ∈ forestNodes u.clades, splq minlen x = false) →
      splicePass minlen u = u := by
  intro n
  induction n with
  | zero => intro u h; exfalso; have := csize_pos u; omega
  | succ n ih =>
    intro u hu hyp
    cases u with
    | mk i nm b cf lb cs =>
      rw [splicePass_eq]
      have htop : ∀ c ∈ cs, splq minlen c = false := by
        intro c hc
        exact hyp c (by simpa using mem_forestNodes_of_mem hc)
      rw [regionList_eq_nil htop, survChildren_id htop]
      have hmap : cs.map (splicePass minlen) = cs := by
        have : ∀ c ∈ cs, splicePass minlen c = c := by
          intro c hc
          refine ih c ?_ ?_
          · have h1 := csize_le_of_mem hc
            simp at hu
            omega
          · intro x hx
            refine hyp x ?_
            simp only [PClade.clades_mk]
            exact mem_forestNodes_trans hx (mem_forestNodes_of_mem hc)
        rw [List.map_congr_left this]
        exact List.map_id _
      rw [hmap]
      rfl

theorem splicePass_id {minlen : ℚ} {u : PClade}
    (hyp : ∀ x ∈ forestNodes u.clades, splq minlen x = false) :
    splicePass minlen u = u :=
  splicePass_id_aux (csize u) u (le_refl _) hyp

/-- C2 (amended): re-running `collapse_polytomies` on an already-collapsed
tree makes no change, provided every terminal of the collapsed tree has a
defined branch length greater than `min_len`.  The unconditional claim is
false: pass 1 of the second run prunes any node that the first run left
childless with a short branch (see `collapse_not_idempotent_cex`), and
such nodes are exactly the ones the proviso excludes. -/
theorem collapse_second_run_fixed (minlen : ℚ) (t t1 : PClade)
    (h : collapse_polytomies minlen t = .ok t1)
    (htips : ∀ x ∈ allNodes t1, x.clades = [] → tipLongB minlen x = true) :
    collapse_polytomies minlen t1 = .ok t1 := by
  rcases hc : t1.clades with _ | ⟨d, ds⟩
  · rw [collapse_leaf minlen hc]
    have ht := htips t1 (self_mem_allNodes t1) hc
    rcases (tipLongB_iff minlen t1).mp ht with ⟨b, hb, hlt⟩
    simp only [hb]
    rw [if_pos hlt]
  · rw [collapse_node minlen hc]
    rw [pruneTips_id minlen t1 htips]
    show Except.ok (splicePass minlen t1) = .ok t1
    have hsp : splicePass minlen t1 = t1 := by
      refine splicePass_id ?_
      intro x hx
      rw [splq_false_iff]
      rcases collapse_post_helper h x hx with hq | hq | hq
      · exact Or.inr (Or.inl hq)
      · exact Or.inr (Or.inr hq)
      · exact Or.inl hq
    rw [hsp]

/-- C2 witness: the tree `exRootT1` (output of a first collapse on a tree
whose surviving tip has branch length 0.9 > 1/2) is a fixed point of a
second run. -/
theorem collapse_second_run_fixed_witness :
    collapse_polytomies (mkRat 1 2)
        (.mk 0 none none none [] [.mk 1 (some "B") (some (mkRat 9 10)) none [] []]) =
      .ok (.mk 0 none none none [] [.mk 1 (some "B") (some (mkRat 9 10)) none [] []]) ∧
    collapse_polytomies (mkRat 1 2)
        (.mk 5 (some "D") none none [] [.mk 6 (some "C") (some (mkRat 9 10)) none [] []]) =
      .ok (.mk 5 (some "D") none none [] [.mk 6 (some "C") (some (mkRat 9 10)) none [] []]) :=
  ⟨by decide,
   collapse_second_run_fixed (mkRat 1 2)
     (.mk 5 none none none []
       [.mk 7 (some "D") (some (mkRat 1 5)) none [] [],
        .mk 6 (some "C") (some (mkRat 9 10)) none [] []])
     (.mk 5 (some "D") none none [] [.mk 6 (some "C") (some (mkRat 9 10)) none [] []])
     (by decide) (by decide)⟩

/-- C3 witness. -/
theorem collapse_none_tip_raises_witness :
    (∃ x ∈ allNodes exC3, x.clades = [] ∧ x.branch_length = none) ∧
    collapse_polytomies (mkRat 1 2) exC3 = .error .typeError :=
  ⟨by decide, collapse_none_tip_raises (mkRat 1 2) exC3 (by decide)⟩

/-! Identity bookkeeping and name-component lemmas for pass 1. -/

theorem allIds_eq (t : PClade) : allIds t = t.nid :: forestIds t.clades := by
  rw [allIds, forestIds, allNodes_eq]
  rfl

@[simp] theorem forestIds_nil : forestIds [] = [] := by rw [forestIds]; simp

@[simp] theorem forestIds_cons (c cs) : forestIds (c :: cs) = allIds c ++ forestIds cs := by
  rw [forestIds, forestNodes_cons, List.map_append]
  rfl

theorem allIds_term {c : PClade} (h : c.clades = []) : allIds c = [c.nid] := by
  rw [allIds_eq, h]
  simp

theorem nid_mem_forestIds {x : PClade} {cs : List PClade} (h : x ∈ forestNodes cs) :
    x.nid ∈ forestIds cs := by
  rw [forestIds]
  exact List.mem_map_of_mem _ h

theorem nid_mem_allIds {x t : PClade} (h : x ∈ allNodes t) : x.nid ∈ allIds t := by
  rw [allIds]
  exact List.mem_map_of_mem _ h

@[simp] theorem nameComps_none : nameComps none = [] := by rw [nameComps]

@[simp] theorem nameComps_some (s : String) : nameComps (some s) = pySplit s := by
  rw [nameComps]

theorem pySplit_ne_nil (s : String) : pySplit s ≠ [] := by
  rw [pySplit]
  intro h
  exact splitBarL_ne_nil s.data (List.map_eq_nil_iff.mp h)

theorem joinName_ok_comps {nm tn nm1 : Option String} (h : joinName nm tn = .ok nm1) :
    nameComps nm1 = nameComps nm ++ nameComps tn := by
  cases nm with
  | none =>
    simp [joinName] at h
    rw [← h]
    simp
  | some p =>
    cases tn with
    | none => simp [joinName] at h
    | some s =>
      simp [joinName] at h
      rw [← h]
      simp [pySplit_append]

theorem nameComps_eq_some {nm : Option String} {l : List String}
    (h : nameComps nm = l) (hne : l ≠ []) : ∃ ns, nm = some ns ∧ pySplit ns = l := by
  cases nm with
  | none => simp at h; exact absurd h.symm (fun hq => hne hq.symm)
  | some ns => exact ⟨ns, rfl, by simpa using h⟩

/-- Full characterization of pass 1 on a child list, proved jointly with
the per-node version: surviving identities come from the input, the
accumulated name only grows, every short-and-defined terminal child is
removed with its name folded in, every long terminal child is kept
unchanged, every internal child is processed in place, and the same holds
at every deeper node. -/
theorem pruneList_spec (minlen : ℚ) :
    ∀ cs : List PClade, ∀ nm cs' nm', pruneList minlen cs nm = .ok (cs', nm') →
      (forestIds cs).Nodup →
      ((∀ j ∈ forestIds cs', j ∈ forestIds cs) ∧
       (∃ extra, nameComps nm' = nameComps nm ++ extra) ∧
       (∀ c ∈ cs, c.clades = [] → ∀ b, c.branch_length = some b →
         (b ≤ minlen → c.nid ∉ forestIds cs' ∧
            ∀ s, c.name = some s → ∃ l r, nameComps nm' = l ++ pySplit s ++ r) ∧
         (minlen < b → c ∈ cs')) ∧
       (∀ c ∈ cs, c.clades ≠ [] → ∃ c', c' ∈ cs' ∧ pruneTips minlen c = .ok c') ∧
       (∀ p ∈ forestNodes cs, ∀ c ∈ p.clades, c.clades = [] → ∀ b, c.branch_length = some b →
         (b ≤ minlen → c.nid ∉ forestIds cs' ∧
            ∀ s, c.name = some s → ∃ p2 ∈ forestNodes cs', p2.nid = p.nid ∧
              ∃ ns l r, p2.name = some ns ∧ pySplit ns = l ++ pySplit s ++ r) ∧
         (minlen < b → ∃ p2 ∈ forestNodes cs', p2.nid = p.nid ∧ c ∈ p2.clades))) := by
  refine pclade_indL
    (fun u => ∀ u', pruneTips minlen u = .ok u' → (allIds u).Nodup →
      ((∀ j ∈ allIds u', j ∈ allIds u) ∧ u'.nid = u.nid ∧
       (∀ p ∈ allNodes u, ∀ c ∈ p.clades, c.clades = [] → ∀ b, c.branch_length = some b →
         (b ≤ minlen → c.nid ∉ allIds u' ∧
            ∀ s, c.name = some s → ∃ p2 ∈ allNodes u', p2.nid = p.nid ∧
              ∃ ns l r, p2.name = some ns ∧ pySplit ns = l ++ pySplit s ++ r) ∧
         (minlen < b → ∃ p2 ∈ allNodes u', p2.nid = p.nid ∧ c ∈ p2.clades))))
    (fun cs => ∀ nm cs' nm', pruneList minlen cs nm = .ok (cs', nm') →
      (forestIds cs).Nodup →
      ((∀ j ∈ forestIds cs', j ∈ forestIds cs) ∧
       (∃ extra, nameComps nm' = nameComps nm ++ extra) ∧
       (∀ c ∈ cs, c.clades = [] → ∀ b, c.branch_length = some b →
         (b ≤ minlen → c.nid ∉ forestIds cs' ∧
            ∀ s, c.name = some s → ∃ l r, nameComps nm' = l ++ pySplit s ++ r) ∧
         (minlen < b → c ∈ cs')) ∧
       (∀ c ∈ cs, c.clades ≠ [] → ∃ c', c' ∈ cs' ∧ pruneTips minlen c = .ok c') ∧
       (∀ p ∈ forestNodes cs, ∀ c ∈ p.clades, c.clades = [] → ∀ b, c.branch_length = some b →
         (b ≤ minlen → c.nid ∉ forestIds cs' ∧
            ∀ s, c.name = some s → ∃ p2 ∈ forestNodes cs', p2.nid = p.nid ∧
              ∃ ns l r, p2.name = some ns ∧ pySplit ns = l ++ pySplit s ++ r) ∧
         (minlen < b → ∃ p2 ∈ forestNodes cs', p2.nid = p.nid ∧ c ∈ p2.clades)))) ?_ ?_ ?_
  · -- tree node case
    intro i n b cf lb cs ih u' hu hnd
    rw [pruneTips_eq] at hu
    simp only [PClade.clades_mk, PClade.name_mk, PClade.nid_mk, PClade.branch_length_mk,
      PClade.confidence_mk, PClade.labels_mk] at hu
    rcases hp : pruneList minlen cs n with ep | p
    · rw [hp] at hu; simp at hu
    · rcases p with ⟨cs2, n2⟩
      rw [hp] at hu
      simp only at hu
      injection hu with hu
      subst hu
      rw [allIds_eq] at hnd
      simp only [PClade.nid_mk, PClade.clades_mk] at hnd
      have hndi := (List.nodup_cons.mp hnd).1
      have hndL := (List.nodup_cons.mp hnd).2
      obtain ⟨ihB1, ihB5, ihB3, ihB4, ihB6⟩ := ih n cs2 n2 hp hndL
      refine ⟨?_, by simp, ?_⟩
      · -- A1
        intro j hj
        rw [allIds_eq] at hj ⊢
        simp only [PClade.nid_mk, PClade.clades_mk] at hj ⊢
        rcases List.mem_cons.mp hj with hj | hj
        · exact List.mem_cons.mpr (Or.inl hj)
        · exact List.mem_cons.mpr (Or.inr (ihB1 j hj))
      · -- A3
        intro p hpmem c hc hcterm b0 hb0
        rw [allNodes_eq] at hpmem
        simp only [PClade.clades_mk] at hpmem
        rcases List.mem_cons.mp hpmem with hpe | hpd
        · -- p is this node
          have hccs : c ∈ cs := by rw [hpe] at hc; simpa using hc
          obtain ⟨hshort, hlong⟩ := ihB3 c hccs hcterm b0 hb0
          constructor
          · intro hle
            obtain ⟨hnot, hnames⟩ := hshort hle
            constructor
            · rw [allIds_eq]
              simp only [PClade.nid_mk, PClade.clades_mk]
              intro hmem
              rcases List.mem_cons.mp hmem with hj | hj
              · exact hndi (hj ▸ nid_mem_forestIds (mem_forestNodes_of_mem hccs))
              · exact hnot hj
            · intro s hs
              obtain ⟨l, r, hlr⟩ := hnames s hs
              obtain ⟨ns, hns, hsplit⟩ := nameComps_eq_some hlr (by
                intro hq
                have h1 := (List.append_eq_nil.mp hq).1
                exact pySplit_ne_nil s (List.append_eq_nil.mp h1).2)
              refine ⟨.mk i n2 b cf lb cs2, self_mem_allNodes _, by rw [hpe]; simp, ns, l, r, ?_, hsplit⟩
              simpa using hns
          · intro hlt
            refine ⟨.mk i n2 b cf lb cs2, self_mem_allNodes _, by rw [hpe]; simp, ?_⟩
            simpa using hlong hlt
        · -- p is deeper
          obtain ⟨hshort, hlong⟩ := ihB6 p hpd c hc hcterm b0 hb0
          have hcforest : c ∈ forestNodes cs :=
            mem_forestNodes_trans (mem_forestNodes_of_mem hc) hpd
          constructor
          · intro hle
            obtain ⟨hnot, hnames⟩ := hshort hle
            constructor
            · rw [allIds_eq]
              simp only [PClade.nid_mk, PClade.clades_mk]
              intro hmem
              rcases List.mem_cons.mp hmem with hj | hj
              · exact hndi (hj ▸ nid_mem_forestIds hcforest)
              · exact hnot hj
            · intro s hs
              obtain ⟨p2, hp2, hpn, rest⟩ := hnames s hs
              refine ⟨p2, ?_, hpn, rest⟩
              rw [allNodes_eq]
              simp only [PClade.clades_mk]
              exact List.mem_cons.mpr (Or.inr hp2)
          · intro hlt
            obtain ⟨p2, hp2, hpn, hcin⟩ := hlong hlt
            refine ⟨p2, ?_, hpn, hcin⟩
            rw [allNodes_eq]
            simp only [PClade.clades_mk]
            exact List.mem_cons.mpr (Or.inr hp2)
  · -- nil case
    intro nm cs' nm' h _
    rw [pruneList_nil] at h
    injection h with h
    injection h with h1 h2
    subst h1; subst h2
    refine ⟨by simp, ⟨[], by simp⟩, by simp, by simp, by simp⟩
  · -- cons case
    intro c cs ihc ihcs nm cs' nm' h hnd
    rw [forestIds_cons] at hnd
    obtain ⟨hnc, hncs, hdisj⟩ := List.nodup_append.mp hnd
    rcases hterm : c.clades with _ | ⟨d, ds⟩
    · -- terminal head
      cases hb : c.branch_length with
      | none =>
        rw [pruneList_cons_term_none minlen cs nm hterm hb] at h
        simp at h
      | some b0 =>
        by_cases hlt : minlen < b0
        · -- long tip: kept
          rw [pruneList_cons_term_long minlen cs nm hterm hb hlt] at h
          rcases hp : pruneList minlen cs nm with ep | p
          · rw [hp] at h; simp at h
          · rcases p with ⟨cs2, nm2⟩
            rw [hp] at h
            simp only at h
            injection h with h
            injection h with h1 h2
            subst h1; subst h2
            obtain ⟨ihB1, ihB5, ihB3, ihB4, ihB6⟩ := ihcs nm cs2 nm2 hp hncs
            refine ⟨?_, ihB5, ?_, ?_, ?_⟩
            · intro j hj
              rw [forestIds_cons] at hj ⊢
              rcases List.mem_append.mp hj with hj | hj
              · exact List.mem_append.mpr (Or.inl hj)
              · exact List.mem_append.mpr (Or.inr (ihB1 j hj))
            · intro c2 hc2 hc2t b2 hb2
              rcases List.mem_cons.mp hc2 with hc2 | hc2
              · subst hc2
                rw [hb] at hb2
                injection hb2 with hb2
                subst hb2
                refine ⟨fun hle => absurd hlt (not_lt.mpr hle), fun _ => List.mem_cons_self _ _⟩
              · obtain ⟨hshort, hlong⟩ := ihB3 c2 hc2 hc2t b2 hb2
                refine ⟨?_, fun hl => List.mem_cons_of_mem _ (hlong hl)⟩
                intro hle
                obtain ⟨hnot, hnames⟩ := hshort hle
                refine ⟨?_, hnames⟩
                rw [forestIds_cons]
                intro hmem
                rcases List.mem_append.mp hmem with hj | hj
                · exact hdisj hj (nid_mem_forestIds (mem_forestNodes_of_mem hc2))
                · exact hnot hj
            · intro c2 hc2 hc2t
              rcases List.mem_cons.mp hc2 with hc2 | hc2
              · subst hc2; exact absurd hterm hc2t
              · obtain ⟨c2', hmem, hok⟩ := ihB4 c2 hc2 hc2t
                exact ⟨c2', List.mem_cons_of_mem _ hmem, hok⟩
            · intro p hpmem c2 hc2 hc2t b2 hb2
              simp only [forestNodes_cons, List.mem_append] at hpmem
              rcases hpmem with hpmem | hpmem
              · -- p inside terminal head: only p = c possible, which has no children
                rw [allNodes_eq, hterm] at hpmem
                simp only [forestNodes_nil] at hpmem
                rcases List.mem_cons.mp hpmem with hpe | hpe
                · rw [hpe, hterm] at hc2; cases hc2
                · cases hpe
              · obtain ⟨hshort, hlong⟩ := ihB6 p hpmem c2 hc2 hc2t b2 hb2
                have hc2forest : c2 ∈ forestNodes cs :=
                  mem_forestNodes_trans (mem_forestNodes_of_mem hc2) hpmem
                constructor
                · intro hle
                  obtain ⟨hnot, hnames⟩ := hshort hle
                  constructor
                  · rw [forestIds_cons]
                    intro hmem
                    rcases List.mem_append.mp hmem with hj | hj
                    · exact hdisj hj (nid_mem_forestIds hc2forest)
                    · exact hnot hj
                  · intro s hs
                    obtain ⟨p2, hp2, hrest⟩ := hnames s hs
                    refine ⟨p2, ?_, hrest⟩
                    simp only [forestNodes_cons, List.mem_append]
                    exact Or.inr hp2
                · intro hl
                  obtain ⟨p2, hp2, hrest⟩ := hlong hl
                  refine ⟨p2, ?_, hrest⟩
                  simp only [forestNodes_cons, List.mem_append]
                  exact Or.inr hp2
        · -- short tip: pruned and folded
          rw [pruneList_cons_term_short minlen cs nm hterm hb hlt] at h
          rcases hj : joinName nm c.name with ej | nm1
          · rw [hj] at h; simp at h
          · rw [hj] at h
            obtain ⟨ihB1, ihB5, ihB3, ihB4, ihB6⟩ := ihcs nm1 cs' nm' h hncs
            have hcnotcs : c.nid ∉ forestIds cs := by
              intro hq
              exact hdisj (nid_mem_allIds (self_mem_allNodes c)) hq
            have hcomps1 : nameComps nm1 = nameComps nm ++ nameComps c.name :=
              joinName_ok_comps hj
            obtain ⟨extra, hextra⟩ := ihB5
            refine ⟨?_, ?_, ?_, ?_, ?_⟩
            · intro j hj2
              rw [forestIds_cons]
              exact List.mem_append.mpr (Or.inr (ihB1 j hj2))
            · exact ⟨nameComps c.name ++ extra, by rw [hextra, hcomps1, List.append_assoc]⟩
            · intro c2 hc2 hc2t b2 hb2
              rcases List.mem_cons.mp hc2 with hc2 | hc2
              · subst hc2
                rw [hb] at hb2
                injection hb2 with hb2
                subst hb2
                constructor
                · intro _
                  refine ⟨fun hmem => hcnotcs (ihB1 _ hmem), ?_⟩
                  intro s hs
                  refine ⟨nameComps nm, extra, ?_⟩
                  rw [hextra, hcomps1, hs]
                  simp
                · intro hl; exact absurd hl hlt
              · obtain ⟨hshort, hlong⟩ := ihB3 c2 hc2 hc2t b2 hb2
                exact ⟨hshort, hlong⟩
            · intro c2 hc2 hc2t
              rcases List.mem_cons.mp hc2 with hc2 | hc2
              · subst hc2; exact absurd hterm hc2t
              · exact ihB4 c2 hc2 hc2t
            · intro p hpmem c2 hc2 hc2t b2 hb2
              simp only [forestNodes_cons, List.mem_append] at hpmem
              rcases hpmem with hpmem | hpmem
              · rw [allNodes_eq, hterm] at hpmem
                simp only [forestNodes_nil] at hpmem
                rcases List.mem_cons.mp hpmem with hpe | hpe
                · rw [hpe, hterm] at hc2; cases hc2
                · cases hpe
              · exact ihB6 p hpmem c2 hc2 hc2t b2 hb2
    · -- internal head
      rw [pruneList_cons_internal minlen cs nm (by rw [hterm]; simp)] at h
      rcases hpc : pruneTips minlen c with ep | c1
      · rw [hpc] at h; simp at h
      · rw [hpc] at h
        rcases hp : pruneList minlen cs nm with eq2 | p
        · rw [hp] at h; simp at h
        · rcases p with ⟨cs2, nm2⟩
          rw [hp] at h
          simp only at h
          injection h with h
          injection h with h1 h2
          subst h1; subst h2
          obtain ⟨ihcA1, ihcA2, ihcA3⟩ := ihc c1 hpc hnc
          obtain ⟨ihB1, ihB5, ihB3, ihB4, ihB6⟩ := ihcs nm cs2 nm2 hp hncs
          have hsub1 : ∀ j ∈ allIds c1, j ∈ allIds c := ihcA1
          refine ⟨?_, ihB5, ?_, ?_, ?_⟩
          · intro j hj2
            rw [forestIds_cons] at hj2 ⊢
            rcases List.mem_append.mp hj2 with hj2 | hj2
            · exact List.mem_append.mpr (Or.inl (hsub1 j hj2))
            · exact List.mem_append.mpr (Or.inr (ihB1 j hj2))
          · intro c2 hc2 hc2t b2 hb2
            rcases List.mem_cons.mp hc2 with hc2 | hc2
            · subst hc2
              rw [hc2t] at hterm
              cases hterm
            · obtain ⟨hshort, hlong⟩ := ihB3 c2 hc2 hc2t b2 hb2
              refine ⟨?_, fun hl => List.mem_cons_of_mem _ (hlong hl)⟩
              intro hle
              obtain ⟨hnot, hnames⟩ := hshort hle
              refine ⟨?_, hnames⟩
              rw [forestIds_cons]
              intro hmem
              rcases List.mem_append.mp hmem with hj2 | hj2
              · exact hdisj (hsub1 _ hj2) (nid_mem_forestIds (mem_forestNodes_of_mem hc2))
              · exact hnot hj2
          · intro c2 hc2 hc2t
            rcases List.mem_cons.mp hc2 with hc2 | hc2
            · subst hc2
              exact ⟨c1, List.mem_cons_self _ _, hpc⟩
            · obtain ⟨c2', hmem, hok⟩ := ihB4 c2 hc2 hc2t
              exact ⟨c2', List.mem_cons_of_mem _ hmem, hok⟩
          · intro p hpmem c2 hc2 hc2t b2 hb2
            simp only [forestNodes_cons, List.mem_append] at hpmem
            rcases hpmem with hpmem | hpmem
            · -- p inside the internal head: use the per-node result on c
              obtain ⟨hshort, hlong⟩ := ihcA3 p hpmem c2 hc2 hc2t b2 hb2
              have hc2in : c2.nid ∈ allIds c := by
                refine nid_mem_allIds (allNodes_trans c p ?_ hpmem)
                rw [allNodes_eq]
                exact List.mem_cons.mpr (Or.inr (mem_forestNodes_of_mem hc2))
              constructor
              · intro hle
                obtain ⟨hnot, hnames⟩ := hshort hle
                constructor
                · rw [forestIds_cons]
                  intro hmem
                  rcases List.mem_append.mp hmem with hj2 | hj2
                  · exact hnot hj2
                  · exact hdisj hc2in (ihB1 _ hj2)
                · intro s hs
                  obtain ⟨p2, hp2, hrest⟩ := hnames s hs
                  refine ⟨p2, ?_, hrest⟩
                  simp only [forestNodes_cons, List.mem_append]
                  exact Or.inl hp2
              · intro hl
                obtain ⟨p2, hp2, hrest⟩ := hlong hl
                refine ⟨p2, ?_, hrest⟩
                simp only [forestNodes_cons, List.mem_append]
                exact Or.inl hp2
            · obtain ⟨hshort, hlong⟩ := ihB6 p hpmem c2 hc2 hc2t b2 hb2
              have hc2forest : c2 ∈ forestNodes cs :=
                mem_forestNodes_trans (mem_forestNodes_of_mem hc2) hpmem
              constructor
              · intro hle
                obtain ⟨hnot, hnames⟩ := hshort hle
                constructor
                · rw [forestIds_cons]
                  intro hmem
                  rcases List.mem_append.mp hmem with hj2 | hj2
                  · exact hdisj (hsub1 _ hj2) (nid_mem_forestIds hc2forest)
                  · exact hnot hj2
                · intro s hs
                  obtain ⟨p2, hp2, hrest⟩ := hnames s hs
                  refine ⟨p2, ?_, hrest⟩
                  simp only [forestNodes_cons, List.mem_append]
                  exact Or.inr hp2
              · intro hl
                obtain ⟨p2, hp2, hrest⟩ := hlong hl
                refine ⟨p2, ?_, hrest⟩
                simp only [forestNodes_cons, List.mem_append]
                exact Or.inr hp2

/-- C8: in pass 1 of `collapse_polytomies`, for every parent `p` and
terminal child `c` with a defined branch length `b`: if `b ≤ min_len`
(inclusive boundary) the tip is removed — its identity is gone from the
output — and its name is folded into the node that keeps `p`'s identity
(the tip's split fields appear contiguously in that node's `|`-joined
name); if `b > min_len` the tip survives unchanged as a child of `p`'s
node. -/
theorem prune_tips_threshold (minlen : ℚ) (t t1 : PClade)
    (hnd : (allIds t).Nodup) (h : pruneTips minlen t = .ok t1) :
    ∀ p ∈ allNodes t, ∀ c ∈ p.clades, c.clades = [] → ∀ b, c.branch_length = some b →
      (b ≤ minlen → c.nid ∉ allIds t1 ∧
         ∀ s, c.name = some s → ∃ p2 ∈ allNodes t1, p2.nid = p.nid ∧
           ∃ ns l r, p2.name = some ns ∧ pySplit ns = l ++ pySplit s ++ r) ∧
      (minlen < b → ∃ p2 ∈ allNodes t1, p2.nid = p.nid ∧ c ∈ p2.clades) := by
  cases t with
  | mk i n b cf lb cs =>
    rw [pruneTips_eq] at h
    simp only [PClade.clades_mk, PClade.name_mk, PClade.nid_mk, PClade.branch_length_mk,
      PClade.confidence_mk, PClade.labels_mk] at h
    rcases hp : pruneList minlen cs n with ep | p
    · rw [hp] at h; simp at h
    · rcases p with ⟨cs2, n2⟩
      rw [hp] at h
      simp only at h
      injection h with h
      subst h
      rw [allIds_eq] at hnd
      simp only [PClade.nid_mk, PClade.clades_mk] at hnd
      have hndi := (List.nodup_cons.mp hnd).1
      have hndL := (List.nodup_cons.mp hnd).2
      obtain ⟨ihB1, ihB5, ihB3, ihB4, ihB6⟩ := pruneList_spec minlen cs n cs2 n2 hp hndL
      intro p hpmem c hc hcterm b0 hb0
      rw [allNodes_eq] at hpmem
      simp only [PClade.clades_mk] at hpmem
      rcases List.mem_cons.mp hpmem with hpe | hpd
      · have hccs : c ∈ cs := by rw [hpe] at hc; simpa using hc
        obtain ⟨hshort, hlong⟩ := ihB3 c hccs hcterm b0 hb0
        constructor
        · intro hle
          obtain ⟨hnot, hnames⟩ := hshort hle
          constructor
          · rw [allIds_eq]
            simp only [PClade.nid_mk, PClade.clades_mk]
            intro hmem
            rcases List.mem_cons.mp hmem with hj | hj
            · exact hndi (hj ▸ nid_mem_forestIds (mem_forestNodes_of_mem hccs))
            · exact hnot hj
          · intro s hs
            obtain ⟨l, r, hlr⟩ := hnames s hs
            obtain ⟨ns, hns, hsplit⟩ := nameComps_eq_some hlr (by
              intro hq
              have h1 := (List.append_eq_nil.mp hq).1
              exact pySplit_ne_nil s (List.append_eq_nil.mp h1).2)
            refine ⟨.mk i n2 b cf lb cs2, self_mem_allNodes _, by rw [hpe]; simp,
              ns, l, r, ?_, hsplit⟩
            simpa using hns
        · intro hlt
          refine ⟨.mk i n2 b cf lb cs2, self_mem_allNodes _, by rw [hpe]; simp, ?_⟩
          simpa using hlong hlt
      · obtain ⟨hshort, hlong⟩ := ihB6 p hpd c hc hcterm b0 hb0
        have hcforest : c ∈ forestNodes cs :=
          mem_forestNodes_trans (mem_forestNodes_of_mem hc) hpd
        constructor
        · intro hle
          obtain ⟨hnot, hnames⟩ := hshort hle
          constructor
          · rw [allIds_eq]
            simp only [PClade.nid_mk, PClade.clades_mk]
            intro hmem
            rcases List.mem_cons.mp hmem with hj | hj
            · exact hndi (hj ▸ nid_mem_forestIds hcforest)
            · exact hnot hj
          · intro s hs
            obtain ⟨p2, hp2, hpn, rest⟩ := hnames s hs
            refine ⟨p2, ?_, hpn, rest⟩
            rw [allNodes_eq]
            simp only [PClade.clades_mk]
            exact List.mem_cons.mpr (Or.inr hp2)
        · intro hlt
          obtain ⟨p2, hp2, hpn, hcin⟩ := hlong hlt
          refine ⟨p2, ?_, hpn, hcin⟩
          rw [allNodes_eq]
          simp only [PClade.clades_mk]
          exact List.mem_cons.mpr (Or.inr hp2)

/-- C8 witness: on a two-tip star with branch lengths exactly `min_len`
and `min_len + 1/10`, pass 1 prunes the boundary tip and keeps the longer
one. -/
theorem prune_tips_threshold_witness :
    (allIds (.mk 0 (some "R") none none []
        [.mk 1 (some "A") (some (mkRat 1 2)) none [] [],
         .mk 2 (some "B") (some (mkRat 3 5)) none [] []])).Nodup ∧
    pruneTips (mkRat 1 2)
        (.mk 0 (some "R") none none []
          [.mk 1 (some "A") (some (mkRat 1 2)) none [] [],
           .mk 2 (some "B") (some (mkRat 3 5)) none [] []]) =
      .ok (.mk 0 (some "R|A") none none [] [.mk 2 (some "B") (some (mkRat 3 5)) none [] []]) ∧
    (∀ p ∈ allNodes (.mk 0 (some "R") none none []
        [.mk 1 (some "A") (some (mkRat 1 2)) none [] [],
         .mk 2 (some "B") (some (mkRat 3 5)) none [] []]),
      ∀ c ∈ p.clades, c.clades = [] → ∀ b, c.branch_length = some b →
      (b ≤ mkRat 1 2 → c.nid ∉ allIds (.mk 0 (some "R|A") none none []
          [.mk 2 (some "B") (some (mkRat 3 5)) none [] []]) ∧
         ∀ s, c.name = some s → ∃ p2 ∈ allNodes (.mk 0 (some "R|A") none none []
             [.mk 2 (some "B") (some (mkRat 3 5)) none [] []]), p2.nid = p.nid ∧
           ∃ ns l r, p2.name = some ns ∧ pySplit ns = l ++ pySplit s ++ r) ∧
      (mkRat 1 2 < b → ∃ p2 ∈ allNodes (.mk 0 (some "R|A") none none []
          [.mk 2 (some "B") (some (mkRat 3 5)) none [] []]), p2.nid = p.nid ∧ c ∈ p2.clades)) :=
  ⟨by decide, by decide,
   prune_tips_threshold (mkRat 1 2) _ _ (by decide) (by decide)⟩

/-! Parent pairs and ancestor relations for the pass-2 characterization. -/

/-- All child-to-parent identity pairs of a tree. -/
def childParentPairs (t : PClade) : List (Nat × Nat) :=
  (allNodes t).flatMap (fun p => p.clades.map (fun c => (c.nid, p.nid)))

/-- Does the subtree contain a node with this identity? -/
def hasId (t : PClade) (j : Nat) : Bool := (allIds t).contains j

mutual
/-- `isAnc t a b`: the node with identity `a` is a strict ancestor (in
`t`) of a node with identity `b`. -/
def isAnc : PClade → Nat → Nat → Bool
  | .mk i _ _ _ _ cs => fun a b2 =>
    (decide (i = a) && cs.any (fun c => hasId c b2)) || isAncL cs a b2
/-- Forest version of `isAnc`. -/
def isAncL : List PClade → Nat → Nat → Bool
  | [] => fun _ _ => false
  | c :: cs => fun a b2 => isAnc c a b2 || isAncL cs a b2
end

theorem isAnc_eq (t : PClade) (a b2 : Nat) :
    isAnc t a b2 =
      ((decide (t.nid = a) && t.clades.any (fun c => hasId c b2)) || isAncL t.clades a b2) := by
  cases t; rw [isAnc]; rfl

@[simp] theorem isAncL_nil (a b2 : Nat) : isAncL [] a b2 = false := by rw [isAncL]

@[simp] theorem isAncL_cons (c cs a b2) :
    isAncL (c :: cs) a b2 = (isAnc c a b2 || isAncL cs a b2) := by rw [isAncL]

theorem exists_child_of_mem_forest {x : PClade} :
    ∀ cs : List PClade, x ∈ forestNodes cs → ∃ c ∈ cs, x ∈ allNodes c := by
  intro cs h
  induction cs with
  | nil => cases h
  | cons c cs ih =>
    simp only [forestNodes_cons, List.mem_append] at h
    rcases h with h | h
    · exact ⟨c, List.mem_cons_self _ _, h⟩
    · obtain ⟨d, hd, hxd⟩ := ih h
      exact ⟨d, List.mem_cons_of_mem _ hd, hxd⟩

theorem hasId_of_mem {c x : PClade} (h : x ∈ allNodes c) : hasId c x.nid = true := by
  rw [hasId]
  exact List.elem_eq_true_of_mem (nid_mem_allIds h)

theorem isAnc_self_of_forest {u x : PClade} (hx : x ∈ forestNodes u.clades) :
    isAnc u u.nid x.nid = true := by
  rw [isAnc_eq]
  obtain ⟨c, hc, hxc⟩ := exists_child_of_mem_forest _ hx
  have h1 : hasId c x.nid = true := hasId_of_mem hxc
  have h2 : u.clades.any (fun c => hasId c x.nid) = true :=
    List.any_eq_true.mpr ⟨c, hc, h1⟩
  simp [h2]

theorem isAncL_of_mem {v : PClade} {cs : List PClade} {a b2 : Nat}
    (h : isAnc v a b2 = true) (hv : v ∈ cs) : isAncL cs a b2 = true := by
  induction cs with
  | nil => cases hv
  | cons c cs ih =>
    rw [isAncL_cons]
    rcases List.mem_cons.mp hv with hv | hv
    · rw [← hv, h]; simp
    · rw [ih hv]; simp

theorem isAnc_lift {v w : PClade} {a b2 : Nat} :
    isAnc v a b2 = true → v ∈ allNodes w → isAnc w a b2 = true := by
  intro h hv
  refine pclade_ind
    (fun w => v ∈ allNodes w → isAnc w a b2 = true)
    (fun cs => v ∈ forestNodes cs → isAncL cs a b2 = true) ?_ ?_ ?_ w hv
  · intro i n b cf lb cs ih hmem
    rw [allNodes_eq] at hmem
    simp only [PClade.clades_mk] at hmem
    rcases List.mem_cons.mp hmem with hmem | hmem
    · rw [← hmem]; exact h
    · rw [isAnc_eq]
      simp only [PClade.clades_mk]
      rw [ih hmem]
      simp
  · intro hmem; cases hmem
  · intro c cs ihc ihcs hmem
    simp only [forestNodes_cons, List.mem_append] at hmem
    rw [isAncL_cons]
    rcases hmem with hmem | hmem
    · rw [ihc hmem]; simp
    · rw [ihcs hmem]; simp

theorem mem_regionList_of_splq {minlen : ℚ} {c : PClade} {cs : List PClade}
    (hc : c ∈ cs) (hq : splq minlen c = true) : c ∈ regionList minlen cs := by
  induction cs with
  | nil => cases hc
  | cons d ds ih =>
    rw [regionList_cons]
    rcases List.mem_cons.mp hc with hc | hc
    · rw [← hc, hq]
      simp
    · exact List.mem_append.mpr (Or.inr (ih hc))

theorem regionList_mono {minlen : ℚ} {c : PClade} {cs : List PClade}
    (hc : c ∈ cs) (hq : splq minlen c = true) :
    ∀ X ∈ regionList minlen c.clades, X ∈ regionList minlen cs := by
  intro X hX
  induction cs with
  | nil => cases hc
  | cons d ds ih =>
    rw [regionList_cons]
    rcases List.mem_cons.mp hc with hc | hc
    · rw [← hc, hq]
      simp only [if_true]
      exact List.mem_append.mpr (Or.inl (List.mem_cons_of_mem _ hX))
    · exact List.mem_append.mpr (Or.inr (ih hc))

theorem mem_survChildren_of_block {minlen : ℚ} {X c : PClade} {cs : List PClade}
    (hX : X ∈ regionList minlen cs) (hc : c ∈ X.clades) (hq : splq minlen c = false) :
    c ∈ survChildren minlen cs := by
  rw [survChildren]
  refine List.mem_append.mpr (Or.inr ?_)
  rw [List.mem_flatMap]
  exact ⟨X, hX, List.mem_filter.mpr ⟨hc, by rw [hq]; rfl⟩⟩

theorem survChildren_superset {minlen : ℚ} {c : PClade} {cs : List PClade}
    (hc : c ∈ cs) (hq : splq minlen c = true) :
    ∀ v ∈ survChildren minlen c.clades, v ∈ survChildren minlen cs := by
  intro v hv
  rw [survChildren] at hv
  rcases List.mem_append.mp hv with hv | hv
  · have h1 := List.mem_filter.mp hv
    refine mem_survChildren_of_block (mem_regionList_of_splq hc hq) h1.1 ?_
    have := h1.2
    simp at this
    exact this
  · rcases List.mem_flatMap.mp hv with ⟨X, hX, hvX⟩
    have h1 := List.mem_filter.mp hvX
    refine mem_survChildren_of_block (regionList_mono hc hq X hX) h1.1 ?_
    have := h1.2
    simp at this
    exact this

theorem mem_survChildren_of_front {minlen : ℚ} {c : PClade} {cs : List PClade}
    (hc : c ∈ cs) (hq : splq minlen c = false) : c ∈ survChildren minlen cs := by
  rw [survChildren]
  exact List.mem_append.mpr (Or.inl (List.mem_filter.mpr ⟨hc, by rw [hq]; rfl⟩))

theorem allIds_subset_of_mem_clades {c t : PClade} (hc : c ∈ t.clades) :
    ∀ j ∈ allIds c, j ∈ allIds t := by
  intro j hj
  rw [allIds] at hj ⊢
  rcases List.mem_map.mp hj with ⟨x, hx, hxj⟩
  exact hxj ▸ List.mem_map_of_mem _
    (allNodes_trans t c hx (by
      rw [allNodes_eq]
      exact List.mem_cons.mpr (Or.inr (mem_forestNodes_of_mem hc))))

/-- Every non-spliced node keeps its identity in the pass-2 output. -/
theorem splicePass_keeps_aux {minlen : ℚ} :
    ∀ n : Nat,
      (∀ u, csize u ≤ n → ∀ y ∈ allNodes u, splq minlen y = false →
        y.nid ∈ allIds (splicePass minlen u)) := by
  intro n
  induction n with
  | zero => intro u h; exfalso; have := csize_pos u; omega
  | succ n ih =>
    have forestStep : ∀ m, m ≤ n → ∀ cs, csizeL cs ≤ m →
        ∀ y ∈ forestNodes cs, splq minlen y = false →
        ∃ v ∈ survChildren minlen cs, y.nid ∈ allIds (splicePass minlen v) := by
      intro m
      induction m with
      | zero =>
        intro _ cs hsz y hy _
        cases cs with
        | nil => cases hy
        | cons c cs => exfalso; have := csize_pos c; simp at hsz; omega
      | succ m ihm =>
        intro hmn cs hsz y hy hq
        obtain ⟨c, hc, hyc⟩ := exists_child_of_mem_forest cs hy
        by_cases hcq : splq minlen c
        · have hyne : y ≠ c := by
            intro he
            rw [he, hcq] at hq
            cases hq
          have hyf : y ∈ forestNodes c.clades := by
            rw [allNodes_eq] at hyc
            rcases List.mem_cons.mp hyc with h1 | h1
            · exact absurd h1 hyne
            · exact h1
          have hlt : csizeL c.clades ≤ m := by
            have h1 := csize_le_of_mem hc
            have h2 := csize_eq c
            omega
          obtain ⟨v, hv, hvy⟩ := ihm (Nat.le_of_succ_le hmn) c.clades hlt y hyf hq
          exact ⟨v, survChildren_superset hc hcq v hv, hvy⟩
        · have hcq2 : splq minlen c = false := Bool.not_eq_true _ ▸ eq_false_of_ne_true hcq
          refine ⟨c, mem_survChildren_of_front hc hcq2, ?_⟩
          refine ih c ?_ y hyc hq
          have := csize_le_of_mem hc
          omega
    intro u hu y hy hq
    rw [allNodes_eq] at hy
    rcases List.mem_cons.mp hy with hy | hy
    · rw [hy]
      rw [allIds_eq, splicePass_nid]
      exact List.mem_cons.mpr (Or.inl rfl)
    · have hcs : csizeL u.clades ≤ n := by
        have := csize_eq u
        omega
      obtain ⟨v, hv, hvy⟩ := forestStep (csizeL u.clades) hcs u.clades (le_refl _) y hy hq
      have hmem : splicePass minlen v ∈ (splicePass minlen u).clades := by
        rw [splicePass_clades]
        exact List.mem_map_of_mem _ hv
      exact allIds_subset_of_mem_clades hmem _ hvy

theorem splicePass_keeps {minlen : ℚ} {u y : PClade} (hy : y ∈ allNodes u)
    (hq : splq minlen y = false) : y.nid ∈ allIds (splicePass minlen u) :=
  splicePass_keeps_aux (csize u) u (le_refl _) y hy hq

/-- The name components a spliced node contributes to its surviving
ancestor: nothing when its name is falsy, its split fields otherwise. -/
def truthyComps (z : PClade) : List String :=
  match z.name with
  | none => []
  | some s => if s = "" then [] else pySplit s

theorem spliceNameStep_comps (acc : Option String) (x : PClade) :
    nameComps (spliceNameStep acc x) = nameComps acc ++ truthyComps x := by
  rw [spliceNameStep, truthyComps]
  cases hn : x.name with
  | none => simp
  | some s =>
    by_cases hs : s = ""
    · simp [hs]
    · cases acc with
      | none => simp [hs]
      | some p => simp [hs, pySplit_append]

theorem spliceNameFold_comps (region : List PClade) :
    ∀ n, nameComps (spliceNameFold n region) =
      nameComps n ++ region.flatMap truthyComps := by
  induction region with
  | nil => intro n; simp [spliceNameFold]
  | cons x region ih =>
    intro n
    rw [spliceNameFold, List.foldl_cons, ← spliceNameFold]
    rw [ih (spliceNameStep n x), spliceNameStep_comps]
    simp

theorem pair_mem_cpp_top {t c : PClade} (hc : c ∈ t.clades) :
    (c.nid, t.nid) ∈ childParentPairs t := by
  rw [childParentPairs, List.mem_flatMap]
  exact ⟨t, self_mem_allNodes t, List.mem_map_of_mem _ hc⟩

theorem cpp_lift {y t : PClade} (hy : y ∈ allNodes t) :
    ∀ pr ∈ childParentPairs y, pr ∈ childParentPairs t := by
  intro pr hpr
  rw [childParentPairs, List.mem_flatMap] at hpr ⊢
  obtain ⟨p, hp, hpr2⟩ := hpr
  exact ⟨p, allNodes_trans t y hp hy, hpr2⟩

/-- Region members of a surviving node: their surviving children become
children of that node's pass-2 image, and their truthy names appear as a
contiguous block of that image's `|`-joined name. -/
theorem region_pair_name {minlen : ℚ} (u : PClade) :
    ∀ X ∈ regionList minlen u.clades,
      ((∀ c ∈ X.clades, splq minlen c = false →
        (c.nid, u.nid) ∈ childParentPairs (splicePass minlen u)) ∧
       (∀ s, X.name = some s → s ≠ "" →
        ∃ ns l r, (splicePass minlen u).name = some ns ∧
          pySplit ns = l ++ pySplit s ++ r)) := by
  intro X hX
  constructor
  · intro c hc hq
    have hmem : c ∈ survChildren minlen u.clades := mem_survChildren_of_block hX hc hq
    have hmem2 : splicePass minlen c ∈ (splicePass minlen u).clades := by
      rw [splicePass_clades]
      exact List.mem_map_of_mem _ hmem
    have := pair_mem_cpp_top hmem2
    rw [splicePass_nid, splicePass_nid] at this
    exact this
  · intro s hs hne
    obtain ⟨r1, r2, hsplit⟩ := List.append_of_mem hX
    have hname : nameComps ((splicePass minlen u).name) =
        nameComps u.name ++ (r1.flatMap truthyComps ++ (pySplit s ++ r2.flatMap truthyComps)) := by
      rw [splicePass_name, spliceNameFold_comps, hsplit]
      simp only [List.flatMap_append, List.flatMap_cons]
      have hX2 : truthyComps X = pySplit s := by
        rw [truthyComps, hs]
        simp [hne]
      rw [hX2]
    obtain ⟨ns, hns, hns2⟩ := nameComps_eq_some hname (by
      intro hq
      simp only [List.append_eq_nil] at hq
      exact pySplit_ne_nil s hq.2.2.1)
    refine ⟨ns, nameComps u.name ++ r1.flatMap truthyComps, r2.flatMap truthyComps, hns, ?_⟩
    rw [hns2]
    simp

/-- Every spliced node of the pass-1 output is either in the region of the
root or strictly inside a surviving child. -/
theorem splq_decomp {minlen : ℚ} :
    ∀ m cs, csizeL cs ≤ m → ∀ x ∈ forestNodes cs, splq minlen x = true →
      x ∈ regionList minlen cs ∨
        ∃ v ∈ survChildren minlen cs, x ∈ forestNodes v.clades := by
  intro m
  induction m with
  | zero =>
    intro cs hsz x hx _
    cases cs with
    | nil => cases hx
    | cons c cs => exfalso; have := csize_pos c; simp at hsz; omega
  | succ m ih =>
    intro cs hsz x hx hq
    obtain ⟨c, hc, hxc⟩ := exists_child_of_mem_forest cs hx
    rw [allNodes_eq] at hxc
    rcases List.mem_cons.mp hxc with hxc | hxc
    · subst hxc
      exact Or.inl (mem_regionList_of_splq hc hq)
    · by_cases hcq : splq minlen c
      · have hsz2 : csizeL c.clades ≤ m := by
          have h1 := csize_le_of_mem hc
          have h2 := csize_eq c
          omega
        rcases ih c.clades hsz2 x hxc hq with h | ⟨v, hv, hxv⟩
        · exact Or.inl (regionList_mono hc hcq x h)
        · exact Or.inr ⟨v, survChildren_superset hc hcq v hv, hxv⟩
      · have hcq2 : splq minlen c = false := Bool.not_eq_true _ ▸ eq_false_of_ne_true hcq
        exact Or.inr ⟨c, mem_survChildren_of_front hc hcq2, hxc⟩

/-- Deep form of the pass-2 reparenting and name-transfer facts. -/
theorem splice_deep {minlen : ℚ} :
    ∀ m t1, csize t1 ≤ m → ∀ x ∈ forestNodes t1.clades, splq minlen x = true →
      ((∀ c ∈ x.clades, splq minlen c = false →
        ∃ pid, (c.nid, pid) ∈ childParentPairs (splicePass minlen t1) ∧
          isAnc t1 pid x.nid = true) ∧
       (∀ s, x.name = some s → s ≠ "" →
        ∃ y ∈ allNodes (splicePass minlen t1), isAnc t1 y.nid x.nid = true ∧
          ∃ ns l r, y.name = some ns ∧ pySplit ns = l ++ pySplit s ++ r)) := by
  intro m
  induction m with
  | zero => intro t1 hsz; exfalso; have := csize_pos t1; omega
  | succ m ih =>
    intro t1 hsz x hx hq
    rcases splq_decomp (csizeL t1.clades) t1.clades (le_refl _) x hx hq with hreg | ⟨v, hv, hxv⟩
    · obtain ⟨hpair, hname⟩ := region_pair_name t1 x hreg
      constructor
      · intro c hc hcq
        exact ⟨t1.nid, hpair c hc hcq, isAnc_self_of_forest hx⟩
      · intro s hs hne
        obtain ⟨ns, l, r, hns, hsplit⟩ := hname s hs hne
        refine ⟨splicePass minlen t1, self_mem_allNodes _, ?_, ns, l, r, hns, hsplit⟩
        rw [splicePass_nid]
        exact isAnc_self_of_forest hx
    · have hvspec := mem_survChildren_spec hv
      have hvall : v ∈ allNodes t1 := by
        rw [allNodes_eq]
        exact List.mem_cons.mpr (Or.inr hvspec.2)
      have hszv : csize v ≤ m := by
        have h1 := csize_le_of_mem_forest hvspec.2
        have h2 := csize_eq t1
        omega
      obtain ⟨ihpair, ihname⟩ := ih v hszv x hxv hq
      have hvmem : splicePass minlen v ∈ allNodes (splicePass minlen t1) := by
        rw [allNodes_eq]
        refine List.mem_cons.mpr (Or.inr ?_)
        refine mem_forestNodes_of_mem ?_
        rw [splicePass_clades]
        exact List.mem_map_of_mem _ hv
      constructor
      · intro c hc hcq
        obtain ⟨pid, hpr, hanc⟩ := ihpair c hc hcq
        exact ⟨pid, cpp_lift hvmem _ hpr, isAnc_lift hanc hvall⟩
      · intro s hs hne
        obtain ⟨y, hy, hanc, rest⟩ := ihname s hs hne
        exact ⟨y, allNodes_trans _ _ hy hvmem, isAnc_lift hanc hvall, rest⟩

/-- C4: characterization of pass 2 on the pass-1 output `t1` (node
identities assumed distinct, as Python object identities are).  (i) The
root is never removed.  (ii) A non-terminal non-root node is spliced out —
its identity disappears — exactly when its branch length is defined and
not greater than `min_len`; in particular an undefined branch length
protects an internal node.  (iii) Each surviving child of a spliced node
is reparented onto the spliced node's parent as recorded in the updated
parent index: its new parent is a strict ancestor of the spliced node.
(iv) A truthy name carried by a spliced node is `|`-join-appended into
that surviving ancestor's name (its split fields appear contiguously). -/
theorem splice_pass_characterization (minlen : ℚ) (t1 : PClade)
    (hnd : (allIds t1).Nodup) :
    ((splicePass minlen t1).nid = t1.nid ∧
     (∀ x ∈ forestNodes t1.clades, x.clades ≠ [] →
       (x.nid ∉ allIds (splicePass minlen t1) ↔
         ∃ b, x.branch_length = some b ∧ b ≤ minlen)) ∧
     (∀ x ∈ forestNodes t1.clades, splq minlen x = true →
       ∀ c ∈ x.clades, splq minlen c = false →
         ∃ pid, (c.nid, pid) ∈ childParentPairs (splicePass minlen t1) ∧
           isAnc t1 pid x.nid = true) ∧
     (∀ x ∈ forestNodes t1.clades, splq minlen x = true →
       ∀ s, x.name = some s → s ≠ "" →
         ∃ y ∈ allNodes (splicePass minlen t1), isAnc t1 y.nid x.nid = true ∧
           ∃ ns l r, y.name = some ns ∧ pySplit ns = l ++ pySplit s ++ r)) := by
  rw [allIds_eq] at hnd
  have hndi := (List.nodup_cons.mp hnd).1
  have hndL := (List.nodup_cons.mp hnd).2
  refine ⟨splicePass_nid minlen t1, ?_, ?_, ?_⟩
  · intro x hx hterm
    constructor
    · intro hnotin
      by_contra hne
      refine hnotin (splicePass_keeps ?_ ?_)
      · rw [allNodes_eq]
        exact List.mem_cons.mpr (Or.inr hx)
      · cases hsq : splq minlen x
        · rfl
        · exact absurd ((splq_true_iff minlen x).mp hsq).2 hne
    · rintro ⟨b, hb, hble⟩ hmem
      have hsq : splq minlen x = true := (splq_true_iff minlen x).mpr ⟨hterm, b, hb, hble⟩
      rw [allIds_eq] at hmem
      rcases List.mem_cons.mp hmem with hmem | hmem
      · rw [splicePass_nid] at hmem
        exact hndi (hmem ▸ nid_mem_forestIds hx)
      · rw [forestIds] at hmem
        rcases List.mem_map.mp hmem with ⟨z, hz, hzx⟩
        obtain ⟨y, hy, hyq, hzy⟩ := splicePass_forest_spec hz
        have hyx : y.nid = x.nid := by rw [← hzx, hzy, splicePass_nid]
        have hinj := List.inj_on_of_nodup_map (by rw [← forestIds]; exact hndL)
          hy hx hyx
        rw [hinj] at hyq
        rw [hsq] at hyq
        cases hyq
  · intro x hx hq c hc hcq
    exact (splice_deep (csize t1) t1 (le_refl _) x hx hq).1 c hc hcq
  · intro x hx hq s hs hne
    exact (splice_deep (csize t1) t1 (le_refl _) x hx hq).2 s hs hne

/-- The pass-1 output used to exercise the pass-2 characterization: a
chain of two short named internal nodes over one long tip. -/
def exC4 : PClade :=
  .mk 0 none none none []
    [.mk 1 (some "na") (some (mkRat 1 10)) none []
      [.mk 2 (some "nb") (some (mkRat 1 10)) none []
        [.mk 3 (some "C") (some (mkRat 9 10)) none [] []]]]

/-- C4 witness. -/
theorem splice_pass_characterization_witness :
    (allIds exC4).Nodup ∧
    ((splicePass (mkRat 1 2) exC4).nid = exC4.nid ∧
     (∀ x ∈ forestNodes exC4.clades, x.clades ≠ [] →
       (x.nid ∉ allIds (splicePass (mkRat 1 2) exC4) ↔
         ∃ b, x.branch_length = some b ∧ b ≤ mkRat 1 2)) ∧
     (∀ x ∈ forestNodes exC4.clades, splq (mkRat 1 2) x = true →
       ∀ c ∈ x.clades, splq (mkRat 1 2) c = false →
         ∃ pid, (c.nid, pid) ∈ childParentPairs (splicePass (mkRat 1 2) exC4) ∧
           isAnc exC4 pid x.nid = true) ∧
     (∀ x ∈ forestNodes exC4.clades, splq (mkRat 1 2) x = true →
       ∀ s, x.name = some s → s ≠ "" →
         ∃ y ∈ allNodes (splicePass (mkRat 1 2) exC4), isAnc exC4 y.nid x.nid = true ∧
           ∃ ns l r, y.name = some ns ∧ pySplit ns = l ++ pySplit s ++ r)) :=
  ⟨by decide, splice_pass_characterization (mkRat 1 2) exC4 (by decide)⟩

/-! Lemmas about `annotate_tree`. -/

theorem annotateInternalsL_nil (ld : List (String × List String)) :
    annotateInternalsL ld [] = .ok [] := by rw [annotateInternalsL]

theorem annotateInternalsL_cons (ld : List (String × List String)) (c : PClade)
    (cs : List PClade) :
    annotateInternalsL ld (c :: cs) =
      match annotateInternals ld c with
      | .error e => .error e
      | .ok c' =>
        match annotateInternalsL ld cs with
        | .error e => .error e
        | .ok cs' => .ok (c' :: cs') := by
  rw [annotateInternalsL]

theorem annotateInternals_leaf (ld : List (String × List String)) (i n b c lb) :
    annotateInternals ld (.mk i n b c lb []) = .ok (.mk i n b c lb []) := rfl

theorem annotateInternals_node (ld : List (String × List String)) (i n b c lb d ds) :
    annotateInternals ld (.mk i n b c lb (d :: ds)) =
      match
        (match n with
         | none => Except.ok ((some ""), ([] : List String))
         | some s =>
           match lookupConcat ld (pySplit s) with
           | .error e => .error e
           | .ok v => .ok  ((some s), v)) with
      | .error e => .error e
      | .ok (n', lb') =>
        match annotateInternalsL ld (d :: ds) with
        | .error e => .error e
        | .ok cs' => .ok (.mk i n' b c lb' cs') := rfl

/-- C6 (amended): after the internal-node loop of `annotate_tree`, an
internal node whose name was `None` is unsampled — it gets `labels = []`
and its name is reset to the empty string — while an internal node with
any string name `s` (including the empty string) goes through the
split-and-look-up path: its labels are the concatenated table entries for
the fields of `s.split('|')`.  The claim's reading of `''` as unsampled is
wrong: `label_dict['']` raises `KeyError` when the empty string is not a
table key (see `annotate_empty_name_cex`). -/
theorem annotate_internal_name_none_unsampled (ld : List (String × List String))
    (t t' : PClade) (h : annotateInternals ld t = .ok t') :
    ∀ x ∈ allNodes t', x.clades ≠ [] →
      ∃ y ∈ allNodes t, y.nid = x.nid ∧
        (y.name = none → x.name = some "" ∧ x.labels = []) ∧
        (∀ s, y.name = some s → x.name = some s ∧
          lookupConcat ld (pySplit s) = .ok x.labels) := by
  refine pclade_ind
    (fun u => ∀ u', annotateInternals ld u = .ok u' →
      ∀ x ∈ allNodes u', x.clades ≠ [] →
        ∃ y ∈ allNodes u, y.nid = x.nid ∧
          (y.name = none → x.name = some "" ∧ x.labels = []) ∧
          (∀ s, y.name = some s → x.name = some s ∧
            lookupConcat ld (pySplit s) = .ok x.labels))
    (fun cs => ∀ cs', annotateInternalsL ld cs = .ok cs' →
      ∀ x ∈ forestNodes cs', x.clades ≠ [] →
        ∃ y ∈ forestNodes cs, y.nid = x.nid ∧
          (y.name = none → x.name = some "" ∧ x.labels = []) ∧
          (∀ s, y.name = some s → x.name = some s ∧
            lookupConcat ld (pySplit s) = .ok x.labels)) ?_ ?_ ?_ t t' h
  · intro i n b cf lb cs ih u' hu x hx hterm
    cases cs with
    | nil =>
      rw [annotateInternals_leaf] at hu
      injection hu with hu
      subst hu
      rw [allNodes_eq] at hx
      simp only [PClade.clades_mk, forestNodes_nil] at hx
      rcases List.mem_cons.mp hx with hx | hx
      · rw [hx] at hterm
        simp at hterm
      · cases hx
    | cons d ds =>
      rw [annotateInternals_node] at hu
      rcases hn : (match n with
        | none => Except.ok ((some ""), ([] : List String))
        | some s =>
          match lookupConcat ld (pySplit s) with
          | .error e => .error e
          | .ok v => .ok ((some s), v)) with en | p
      · rw [hn] at hu; simp at hu
      · rcases p with ⟨n', lb'⟩
        rw [hn] at hu
        rcases hcs : annotateInternalsL ld (d :: ds) with ecs | cs'
        · rw [hcs] at hu; simp at hu
        · rw [hcs] at hu
          simp only at hu
          injection hu with hu
          subst hu
          rw [allNodes_eq] at hx
          simp only [PClade.clades_mk] at hx
          rcases List.mem_cons.mp hx with hx | hx
          · refine ⟨.mk i n b cf lb (d :: ds), self_mem_allNodes _, by rw [hx]; simp, ?_, ?_⟩
            · intro hnone
              simp only [PClade.name_mk] at hnone
              rw [hnone] at hn
              simp only at hn
              injection hn with hn
              injection hn with hn1 hn2
              rw [hx]
              simp [← hn1, ← hn2]
            · intro s hs
              simp only [PClade.name_mk] at hs
              rw [hs] at hn
              simp only at hn
              rcases hl : lookupConcat ld (pySplit s) with el | v
              · rw [hl] at hn; simp at hn
              · rw [hl] at hn
                injection hn with hn
                injection hn with hn1 hn2
                rw [hx]
                simp [← hn1, ← hn2]
          · obtain ⟨y, hy, rest⟩ := ih cs' hcs x hx hterm
            refine ⟨y, ?_, rest⟩
            rw [allNodes_eq]
            simp only [PClade.clades_mk]
            exact List.mem_cons.mpr (Or.inr hy)
  · intro cs' h2 x hx hterm
    rw [annotateInternalsL_nil] at h2
    injection h2 with h2
    subst h2
    cases hx
  · intro c cs ihc ihcs cs' h2 x hx hterm
    rw [annotateInternalsL_cons] at h2
    rcases hc : annotateInternals ld c with ec | c'
    · rw [hc] at h2; simp at h2
    · rw [hc] at h2
      rcases hcs : annotateInternalsL ld cs with ecs | cs2
      · rw [hcs] at h2; simp at h2
      · rw [hcs] at h2
        simp only at h2
        injection h2 with h2
        subst h2
        simp only [forestNodes_cons, List.mem_append] at hx
        rcases hx with hx | hx
        · obtain ⟨y, hy, rest⟩ := ihc c' hc x hx hterm
          refine ⟨y, ?_, rest⟩
          simp only [forestNodes_cons, List.mem_append]
          exact Or.inl hy
        · obtain ⟨y, hy, rest⟩ := ihcs cs2 hcs x hx hterm
          refine ⟨y, ?_, rest⟩
          simp only [forestNodes_cons, List.mem_append]
          exact Or.inr hy

/-- Tree for the C6 witness: an unsampled internal node over a named
internal node over a labelled tip. -/
def exC6w : PClade :=
  .mk 0 none none none []
    [.mk 1 (some "T") (some (mkRat 1 1)) none []
      [.mk 2 (some "T") (some (mkRat 1 1)) none [] []]]

/-- C6 witness. -/
theorem annotate_internal_name_none_unsampled_witness :
    annotateInternals exC6ld exC6w =
      .ok (.mk 0 (some "") none none []
        [.mk 1 (some "T") (some (mkRat 1 1)) none ["T|a|r|c|2021-01-01"]
          [.mk 2 (some "T") (some (mkRat 1 1)) none [] []]]) ∧
    (∀ x ∈ allNodes (.mk 0 (some "") none none []
        [.mk 1 (some "T") (some (mkRat 1 1)) none ["T|a|r|c|2021-01-01"]
          [.mk 2 (some "T") (some (mkRat 1 1)) none [] []]] : PClade), x.clades ≠ [] →
      ∃ y ∈ allNodes exC6w, y.nid = x.nid ∧
        (y.name = none → x.name = some "" ∧ x.labels = []) ∧
        (∀ s, y.name = some s → x.name = some s ∧
          lookupConcat exC6ld (pySplit s) = .ok x.labels)) :=
  ⟨by decide, annotate_internal_name_none_unsampled exC6ld exC6w _ (by decide)⟩

theorem lookupConcat_err {ld : List (String × List String)} :
    ∀ ks e, lookupConcat ld ks = .error e → e = .keyError := by
  intro ks
  induction ks with
  | nil => intro e h; rw [lookupConcat] at h; simp at h
  | cons k ks ih =>
    intro e h
    rw [lookupConcat] at h
    rcases hk : List.lookup k ld with _ | v
    · rw [hk] at h
      simp at h
      exact h.symm
    · rw [hk] at h
      rcases hr : lookupConcat ld ks with er | rest
      · rw [hr] at h
        simp at h
        rw [← h]
        exact ih er hr
      · rw [hr] at h
        simp at h

theorem lookupConcat_ok_of {ld : List (String × List String)} :
    ∀ ks, (∀ k ∈ ks, (List.lookup k ld).isSome) → ∃ v, lookupConcat ld ks = .ok v := by
  intro ks
  induction ks with
  | nil => intro _; exact ⟨[], by rw [lookupConcat]⟩
  | cons k ks ih =>
    intro hyp
    rcases hk : List.lookup k ld with _ | v
    · have := hyp k (List.mem_cons_self _ _)
      rw [hk] at this
      simp at this
    · obtain ⟨rest, hrest⟩ := ih (fun k2 hk2 => hyp k2 (List.mem_cons_of_mem _ hk2))
      refine ⟨v ++ rest, ?_⟩
      rw [lookupConcat, hk, hrest]

theorem lookupConcat_ok_implies {ld : List (String × List String)} :
    ∀ ks v, lookupConcat ld ks = .ok v → ∀ k ∈ ks, (List.lookup k ld).isSome := by
  intro ks
  induction ks with
  | nil => intro v h k hk; cases hk
  | cons k2 ks ih =>
    intro v h k hk
    rw [lookupConcat] at h
    rcases hk2 : List.lookup k2 ld with _ | v2
    · rw [hk2] at h; simp at h
    · rw [hk2] at h
      rcases hr : lookupConcat ld ks with er | rest
      · rw [hr] at h; simp at h
      · rcases List.mem_cons.mp hk with hk | hk
        · rw [hk, hk2]; rfl
        · exact ih rest hr k hk

theorem pySplit_no_bar {s : String} (h : s.data.contains '|' = false) : pySplit s = [s] := by
  rw [pySplit]
  have hsplit : splitBarL s.data = [s.data] := by
    have h2 : ∀ l : List Char, l.contains '|' = false → splitBarL l = [l] := by
      intro l
      induction l with
      | nil => intro _; rw [splitBarL]
      | cons c cs ih =>
        intro hl
        simp only [List.contains_cons] at hl
        have hc : ('|' == c) = false := by
          cases hq : ('|' == c)
          · rfl
          · rw [hq] at hl; simp at hl
        have hcs : cs.contains '|' = false := by
          cases hq : cs.contains '|'
          · rfl
          · rw [hq] at hl; simp at hl
        rw [splitBarL, ih hcs]
        have : ¬ (c = '|') := by
          intro he
          rw [he] at hc
          simp at hc
        simp [this]
    exact h2 s.data h
  rw [hsplit]
  simp
  rfl

theorem annotateTips_leaf_none (ld : List (String × List String)) (i b c lb) :
    annotateTips ld (.mk i none b c lb []) = .error .typeError := rfl

theorem annotateTips_leaf_some (ld : List (String × List String)) (i s b c lb) :
    annotateTips ld (.mk i (some s) b c lb []) =
      (if s.data.contains '|' then
         match lookupConcat ld (pySplit s) with
         | .error e => .error e
         | .ok v => .ok (.mk i (some s) b c v [])
       else
         match List.lookup s ld with
         | some v => .ok (.mk i (some s) b c v [])
         | none => .error .keyError) := rfl

theorem annotateTips_node (ld : List (String × List String)) (i n b c lb d ds) :
    annotateTips ld (.mk i n b c lb (d :: ds)) =
      match annotateTipsL ld (d :: ds) with
      | .error e => .error e
      | .ok cs' => .ok (.mk i n b c lb cs') := rfl

theorem annotateTipsL_nil (ld : List (String × List String)) :
    annotateTipsL ld [] = .ok [] := by rw [annotateTipsL]

theorem annotateTipsL_cons (ld : List (String × List String)) (c cs) :
    annotateTipsL ld (c :: cs) =
      match annotateTips ld c with
      | .error e => .error e
      | .ok c' =>
        match annotateTipsL ld cs with
        | .error e => .error e
        | .ok cs' => .ok (c' :: cs') := by
  rw [annotateTipsL]

theorem annotateTips_shape (ld : List (String × List String)) :
    ∀ u u', annotateTips ld u = .ok u' →
      ((∀ x ∈ allNodes u', ∃ y ∈ allNodes u, y.nid = x.nid ∧ y.name = x.name ∧
          (y.clades = [] ↔ x.clades = [])) ∧
       (∀ y ∈ allNodes u, ∃ x ∈ allNodes u', y.nid = x.nid ∧ y.name = x.name ∧
          (y.clades = [] ↔ x.clades = []))) := by
  refine pclade_ind
    (fun u => ∀ u', annotateTips ld u = .ok u' →
      ((∀ x ∈ allNodes u', ∃ y ∈ allNodes u, y.nid = x.nid ∧ y.name = x.name ∧
          (y.clades = [] ↔ x.clades = [])) ∧
       (∀ y ∈ allNodes u, ∃ x ∈ allNodes u', y.nid = x.nid ∧ y.name = x.name ∧
          (y.clades = [] ↔ x.clades = []))))
    (fun cs => ∀ cs', annotateTipsL ld cs = .ok cs' →
      ((∀ x ∈ forestNodes cs', ∃ y ∈ forestNodes cs, y.nid = x.nid ∧ y.name = x.name ∧
          (y.clades = [] ↔ x.clades = [])) ∧
       (∀ y ∈ forestNodes cs, ∃ x ∈ forestNodes cs', y.nid = x.nid ∧ y.name = x.name ∧
          (y.clades = [] ↔ x.clades = [])))) ?_ ?_ ?_
  · intro i n b cf lb cs ih u' hu
    cases cs with
    | nil =>
      cases n with
      | none => rw [annotateTips_leaf_none] at hu; simp at hu
      | some s =>
        rw [annotateTips_leaf_some] at hu
        have hform : ∃ v, u' = .mk i (some s) b cf v [] := by
          by_cases hbar : s.data.contains '|'
          · rw [if_pos hbar] at hu
            rcases hl : lookupConcat ld (pySplit s) with el | v
            · rw [hl] at hu; simp at hu
            · rw [hl] at hu
              simp only at hu
              injection hu with hu
              exact ⟨v, hu.symm⟩
          · rw [if_neg hbar] at hu
            rcases hl : List.lookup s ld with _ | v
            · rw [hl] at hu; simp at hu
            · rw [hl] at hu
              simp only at hu
              injection hu with hu
              exact ⟨v, hu.symm⟩
        obtain ⟨v, hv⟩ := hform
        subst hv
        constructor
        · intro x hx
          rw [allNodes_eq] at hx
          simp only [PClade.clades_mk, forestNodes_nil] at hx
          rcases List.mem_cons.mp hx with hx | hx
          · exact ⟨.mk i (some s) b cf lb [], self_mem_allNodes _, by rw [hx]; simp⟩
          · cases hx
        · intro y hy
          rw [allNodes_eq] at hy
          simp only [PClade.clades_mk, forestNodes_nil] at hy
          rcases List.mem_cons.mp hy with hy | hy
          · exact ⟨.mk i (some s) b cf v [], self_mem_allNodes _, by rw [hy]; simp⟩
          · cases hy
    | cons d ds =>
      rw [annotateTips_node] at hu
      rcases hl : annotateTipsL ld (d :: ds) with el | cs'
      · rw [hl] at hu; simp at hu
      · rw [hl] at hu
        simp only at hu
        injection hu with hu
        subst hu
        obtain ⟨ihf, ihb⟩ := ih cs' hl
        have hne : cs' ≠ [] := by
          intro he
          subst he
          obtain ⟨x, hx, _⟩ := ihb d (allNodes_subset_forestNodes (List.mem_cons_self _ _) d
            (self_mem_allNodes d))
          cases hx
        constructor
        · intro x hx
          rw [allNodes_eq] at hx
          simp only [PClade.clades_mk] at hx
          rcases List.mem_cons.mp hx with hx | hx
          · refine ⟨.mk i n b cf lb (d :: ds), self_mem_allNodes _, by rw [hx]; simp, ?_, ?_⟩
            · rw [hx]; simp
            · rw [hx]
              simp [hne]
          · obtain ⟨y, hy, rest⟩ := ihf x hx
            refine ⟨y, ?_, rest⟩
            rw [allNodes_eq]
            simp only [PClade.clades_mk]
            exact List.mem_cons.mpr (Or.inr hy)
        · intro y hy
          rw [allNodes_eq] at hy
          simp only [PClade.clades_mk] at hy
          rcases List.mem_cons.mp hy with hy | hy
          · refine ⟨.mk i n b cf lb cs', self_mem_allNodes _, by rw [hy]; simp, ?_, ?_⟩
            · rw [hy]; simp
            · rw [hy]
              simp [hne]
          · obtain ⟨x, hx, rest⟩ := ihb y hy
            refine ⟨x, ?_, rest⟩
            rw [allNodes_eq]
            simp only [PClade.clades_mk]
            exact List.mem_cons.mpr (Or.inr hx)
  · intro cs' h
    rw [annotateTipsL_nil] at h
    injection h with h
    subst h
    exact ⟨fun x hx => absurd hx (by simp), fun y hy => absurd hy (by simp)⟩
  · intro c cs ihc ihcs cs' h
    rw [annotateTipsL_cons] at h
    rcases hc : annotateTips ld c with ec | c'
    · rw [hc] at h; simp at h
    · rw [hc] at h
      rcases hcs : annotateTipsL ld cs with ecs | cs2
      · rw [hcs] at h; simp at h
      · rw [hcs] at h
        simp only at h
        injection h with h
        subst h
        obtain ⟨ihcf, ihcb⟩ := ihc c' hc
        obtain ⟨ihcsf, ihcsb⟩ := ihcs cs2 hcs
        constructor
        · intro x hx
          simp only [forestNodes_cons, List.mem_append] at hx
          rcases hx with hx | hx
          · obtain ⟨y, hy, rest⟩ := ihcf x hx
            exact ⟨y, by simp only [forestNodes_cons, List.mem_append]; exact Or.inl hy, rest⟩
          · obtain ⟨y, hy, rest⟩ := ihcsf x hx
            exact ⟨y, by simp only [forestNodes_cons, List.mem_append]; exact Or.inr hy, rest⟩
        · intro y hy
          simp only [forestNodes_cons, List.mem_append] at hy
          rcases hy with hy | hy
          · obtain ⟨x, hx, rest⟩ := ihcb y hy
            exact ⟨x, by simp only [forestNodes_cons, List.mem_append]; exact Or.inl hx, rest⟩
          · obtain ⟨x, hx, rest⟩ := ihcsb y hy
            exact ⟨x, by simp only [forestNodes_cons, List.mem_append]; exact Or.inr hx, rest⟩

theorem annotateTips_err (ld : List (String × List String)) :
    ∀ u, (∀ x ∈ allNodes u, x.clades = [] → x.name ≠ none) →
      ∀ e, annotateTips ld u = .error e → e = .keyError := by
  refine pclade_ind
    (fun u => (∀ x ∈ allNodes u, x.clades = [] → x.name ≠ none) →
      ∀ e, annotateTips ld u = .error e → e = .keyError)
    (fun cs => (∀ x ∈ forestNodes cs, x.clades = [] → x.name ≠ none) →
      ∀ e, annotateTipsL ld cs = .error e → e = .keyError) ?_ ?_ ?_
  · intro i n b cf lb cs ih hyp e h
    cases cs with
    | nil =>
      cases n with
      | none =>
        have hne := hyp (.mk i none b cf lb []) (self_mem_allNodes _) (by simp)
        simp at hne
      | some s =>
        rw [annotateTips_leaf_some] at h
        by_cases hbar : s.data.contains '|'
        · rw [if_pos hbar] at h
          rcases hl : lookupConcat ld (pySplit s) with el | v
          · rw [hl] at h
            simp at h
            rw [← h]
            exact lookupConcat_err _ el hl
          · rw [hl] at h; simp at h
        · rw [if_neg hbar] at h
          rcases hl : List.lookup s ld with _ | v
          · rw [hl] at h
            simp at h
            exact h.symm
          · rw [hl] at h; simp at h
    | cons d ds =>
      rw [annotateTips_node] at h
      rcases hl : annotateTipsL ld (d :: ds) with el | cs'
      · rw [hl] at h
        simp at h
        rw [← h]
        refine ih ?_ el hl
        intro x hx hxt
        refine hyp x ?_ hxt
        rw [allNodes_eq]
        simp only [PClade.clades_mk]
        exact List.mem_cons.mpr (Or.inr hx)
      · rw [hl] at h; simp at h
  · intro _ e h
    rw [annotateTipsL_nil] at h
    simp at h
  · intro c cs ihc ihcs hyp e h
    have hypc : ∀ x ∈ allNodes c, x.clades = [] → x.name ≠ none := by
      intro x hx hxt
      refine hyp x ?_ hxt
      simp only [forestNodes_cons, List.mem_append]
      exact Or.inl hx
    have hypcs : ∀ x ∈ forestNodes cs, x.clades = [] → x.name ≠ none := by
      intro x hx hxt
      refine hyp x ?_ hxt
      simp only [forestNodes_cons, List.mem_append]
      exact Or.inr hx
    rw [annotateTipsL_cons] at h
    rcases hc : annotateTips ld c with ec | c'
    · rw [hc] at h
      simp at h
      rw [← h]
      exact ihc hypc ec hc
    · rw [hc] at h
      rcases hcs : annotateTipsL ld cs with ecs | cs2
      · rw [hcs] at h
        simp at h
        rw [← h]
        exact ihcs hypcs ecs hcs
      · rw [hcs] at h; simp at h

theorem annotateTips_ok_of (ld : List (String × List String)) :
    ∀ u, (∀ x ∈ allNodes u, x.clades = [] → x.name ≠ none) →
      (∀ x ∈ allNodes u, x.clades = [] →
        ∀ cpt ∈ nameComps x.name, (List.lookup cpt ld).isSome = true) →
      ∃ u', annotateTips ld u = .ok u' := by
  refine pclade_ind
    (fun u => (∀ x ∈ allNodes u, x.clades = [] → x.name ≠ none) →
      (∀ x ∈ allNodes u, x.clades = [] →
        ∀ cpt ∈ nameComps x.name, (List.lookup cpt ld).isSome = true) →
      ∃ u', annotateTips ld u = .ok u')
    (fun cs => (∀ x ∈ forestNodes cs, x.clades = [] → x.name ≠ none) →
      (∀ x ∈ forestNodes cs, x.clades = [] →
        ∀ cpt ∈ nameComps x.name, (List.lookup cpt ld).isSome = true) →
      ∃ cs', annotateTipsL ld cs = .ok cs') ?_ ?_ ?_
  · intro i n b cf lb cs ih hyp1 hyp2
    cases cs with
    | nil =>
      cases n with
      | none =>
        have hne := hyp1 (.mk i none b cf lb []) (self_mem_allNodes _) (by simp)
        simp at hne
      | some s =>
        rw [annotateTips_leaf_some]
        have hcomps := hyp2 (.mk i (some s) b cf lb []) (self_mem_allNodes _) (by simp)
        simp only [PClade.name_mk, nameComps_some] at hcomps
        by_cases hbar : s.data.contains '|'
        · rw [if_pos hbar]
          obtain ⟨v, hv⟩ := lookupConcat_ok_of (pySplit s) (by
            intro k hk
            have := hcomps k hk
            rw [this])
          rw [hv]
          exact ⟨_, rfl⟩
        · rw [if_neg hbar]
          have hnb : pySplit s = [s] := pySplit_no_bar (by
            cases hq : s.data.contains '|'
            · rfl
            · exact absurd hq hbar)
          have := hcomps s (by rw [hnb]; exact List.mem_singleton.mpr rfl)
          rcases hl : List.lookup s ld with _ | v
          · rw [hl] at this; simp at this
          · exact ⟨_, rfl⟩
    | cons d ds =>
      rw [annotateTips_node]
      obtain ⟨cs', hcs⟩ := ih
        (by
          intro x hx hxt
          refine hyp1 x ?_ hxt
          rw [allNodes_eq]
          simp only [PClade.clades_mk]
          exact List.mem_cons.mpr (Or.inr hx))
        (by
          intro x hx hxt
          refine hyp2 x ?_ hxt
          rw [allNodes_eq]
          simp only [PClade.clades_mk]
          exact List.mem_cons.mpr (Or.inr hx))
      rw [hcs]
      exact ⟨_, rfl⟩
  · intro _ _
    exact ⟨[], annotateTipsL_nil ld⟩
  · intro c cs ihc ihcs hyp1 hyp2
    obtain ⟨c', hc⟩ := ihc
      (fun x hx hxt => hyp1 x (by
        simp only [forestNodes_cons, List.mem_append]; exact Or.inl hx) hxt)
      (fun x hx hxt => hyp2 x (by
        simp only [forestNodes_cons, List.mem_append]; exact Or.inl hx) hxt)
    obtain ⟨cs2, hcs⟩ := ihcs
      (fun x hx hxt => hyp1 x (by
        simp only [forestNodes_cons, List.mem_append]; exact Or.inr hx) hxt)
      (fun x hx hxt => hyp2 x (by
        simp only [forestNodes_cons, List.mem_append]; exact Or.inr hx) hxt)
    rw [annotateTipsL_cons, hc, hcs]
    exact ⟨_, rfl⟩

theorem annotateTips_ok_implies (ld : List (String × List String)) :
    ∀ u u', annotateTips ld u = .ok u' →
      ∀ x ∈ allNodes u, x.clades = [] →
        ∀ cpt ∈ nameComps x.name, (List.lookup cpt ld).isSome = true := by
  refine pclade_ind
    (fun u => ∀ u', annotateTips ld u = .ok u' →
      ∀ x ∈ allNodes u, x.clades = [] →
        ∀ cpt ∈ nameComps x.name, (List.lookup cpt ld).isSome = true)
    (fun cs => ∀ cs', annotateTipsL ld cs = .ok cs' →
      ∀ x ∈ forestNodes cs, x.clades = [] →
        ∀ cpt ∈ nameComps x.name, (List.lookup cpt ld).isSome = true) ?_ ?_ ?_
  · intro i n b cf lb cs ih u' hu x hx hxt cpt hcpt
    cases cs with
    | nil =>
      rw [allNodes_eq] at hx
      simp only [PClade.clades_mk, forestNodes_nil] at hx
      rcases List.mem_cons.mp hx with hx | hx
      · subst hx
        cases n with
        | none => rw [annotateTips_leaf_none] at hu; simp at hu
        | some s =>
          rw [annotateTips_leaf_some] at hu
          simp only [PClade.name_mk, nameComps_some] at hcpt
          by_cases hbar : s.data.contains '|'
          · rw [if_pos hbar] at hu
            rcases hl : lookupConcat ld (pySplit s) with el | v
            · rw [hl] at hu; simp at hu
            · have := lookupConcat_ok_implies (pySplit s) v hl cpt hcpt
              rw [this]
          · rw [if_neg hbar] at hu
            have hnb : pySplit s = [s] := pySplit_no_bar (by
              cases hq : s.data.contains '|'
              · rfl
              · exact absurd hq hbar)
            rw [hnb] at hcpt
            have hcpt2 := List.mem_singleton.mp hcpt
            subst hcpt2
            rcases hl : List.lookup cpt ld with _ | v
            · rw [hl] at hu; simp at hu
            · rfl
      · cases hx
    | cons d ds =>
      rw [annotateTips_node] at hu
      rcases hl : annotateTipsL ld (d :: ds) with el | cs'
      · rw [hl] at hu; simp at hu
      · rw [allNodes_eq] at hx
        simp only [PClade.clades_mk] at hx
        rcases List.mem_cons.mp hx with hx | hx
        · subst hx
          simp at hxt
        · exact ih cs' hl x hx hxt cpt hcpt
  · intro cs' h x hx
    cases hx
  · intro c cs ihc ihcs cs' h x hx hxt cpt hcpt
    rw [annotateTipsL_cons] at h
    rcases hc : annotateTips ld c with ec | c'
    · rw [hc] at h; simp at h
    · rw [hc] at h
      rcases hcs : annotateTipsL ld cs with ecs | cs2
      · rw [hcs] at h; simp at h
      · simp only [forestNodes_cons, List.mem_append] at hx
        rcases hx with hx | hx
        · exact ihc c' hc x hx hxt cpt hcpt
        · exact ihcs cs2 hcs x hx hxt cpt hcpt

theorem annotateInternals_err (ld : List (String × List String)) :
    ∀ u e, annotateInternals ld u = .error e → e = .keyError := by
  refine pclade_ind
    (fun u => ∀ e, annotateInternals ld u = .error e → e = .keyError)
    (fun cs => ∀ e, annotateInternalsL ld cs = .error e → e = .keyError) ?_ ?_ ?_
  · intro i n b cf lb cs ih e h
    cases cs with
    | nil => rw [annotateInternals_leaf] at h; simp at h
    | cons d ds =>
      rw [annotateInternals_node] at h
      cases n with
      | none =>
        simp only at h
        rcases hcs : annotateInternalsL ld (d :: ds) with ecs | cs'
        · rw [hcs] at h
          simp at h
          rw [← h]
          exact ih ecs hcs
        · rw [hcs] at h; simp at h
      | some s =>
        simp only at h
        rcases hl : lookupConcat ld (pySplit s) with el | v
        · rw [hl] at h
          simp at h
          rw [← h]
          exact lookupConcat_err _ el hl
        · rw [hl] at h
          simp only at h
          rcases hcs : annotateInternalsL ld (d :: ds) with ecs | cs'
          · rw [hcs] at h
            simp at h
            rw [← h]
            exact ih ecs hcs
          · rw [hcs] at h; simp at h
  · intro e h
    rw [annotateInternalsL_nil] at h
    simp at h
  · intro c cs ihc ihcs e h
    rw [annotateInternalsL_cons] at h
    rcases hc : annotateInternals ld c with ec | c'
    · rw [hc] at h
      simp at h
      rw [← h]
      exact ihc ec hc
    · rw [hc] at h
      rcases hcs : annotateInternalsL ld cs with ecs | cs2
      · rw [hcs] at h
        simp at h
        rw [← h]
        exact ihcs ecs hcs
      · rw [hcs] at h; simp at h

theorem annotateInternals_ok_of (ld : List (String × List String)) :
    ∀ u, (∀ x ∈ allNodes u, x.clades ≠ [] →
        ∀ cpt ∈ nameComps x.name, (List.lookup cpt ld).isSome = true) →
      ∃ u', annotateInternals ld u = .ok u' := by
  refine pclade_ind
    (fun u => (∀ x ∈ allNodes u, x.clades ≠ [] →
        ∀ cpt ∈ nameComps x.name, (List.lookup cpt ld).isSome = true) →
      ∃ u', annotateInternals ld u = .ok u')
    (fun cs => (∀ x ∈ forestNodes cs, x.clades ≠ [] →
        ∀ cpt ∈ nameComps x.name, (List.lookup cpt ld).isSome = true) →
      ∃ cs', annotateInternalsL ld cs = .ok cs') ?_ ?_ ?_
  · intro i n b cf lb cs ih hyp
    cases cs with
    | nil => exact ⟨_, annotateInternals_leaf ld i n b cf lb⟩
    | cons d ds =>
      rw [annotateInternals_node]
      obtain ⟨cs', hcs⟩ := ih (by
        intro x hx hxt
        refine hyp x ?_ hxt
        rw [allNodes_eq]
        simp only [PClade.clades_mk]
        exact List.mem_cons.mpr (Or.inr hx))
      cases n with
      | none =>
        simp only
        rw [hcs]
        exact ⟨_, rfl⟩
      | some s =>
        have hcomps := hyp (.mk i (some s) b cf lb (d :: ds)) (self_mem_allNodes _) (by simp)
        simp only [PClade.name_mk, nameComps_some] at hcomps
        obtain ⟨v, hv⟩ := lookupConcat_ok_of (pySplit s) (by
          intro k hk
          have := hcomps k hk
          rw [this])
        simp only
        rw [hv, hcs]
        exact ⟨_, rfl⟩
  · intro _
    exact ⟨[], annotateInternalsL_nil ld⟩
  · intro c cs ihc ihcs hyp
    obtain ⟨c', hc⟩ := ihc (fun x hx hxt => hyp x (by
      simp only [forestNodes_cons, List.mem_append]; exact Or.inl hx) hxt)
    obtain ⟨cs2, hcs⟩ := ihcs (fun x hx hxt => hyp x (by
      simp only [forestNodes_cons, List.mem_append]; exact Or.inr hx) hxt)
    rw [annotateInternalsL_cons, hc, hcs]
    exact ⟨_, rfl⟩

theorem annotateInternals_ok_implies (ld : List (String × List String)) :
    ∀ u u', annotateInternals ld u = .ok u' →
      ∀ x ∈ allNodes u, x.clades ≠ [] →
        ∀ cpt ∈ nameComps x.name, (List.lookup cpt ld).isSome = true := by
  refine pclade_ind
    (fun u => ∀ u', annotateInternals ld u = .ok u' →
      ∀ x ∈ allNodes u, x.clades ≠ [] →
        ∀ cpt ∈ nameComps x.name, (List.lookup cpt ld).isSome = true)
    (fun cs => ∀ cs', annotateInternalsL ld cs = .ok cs' →
      ∀ x ∈ forestNodes cs, x.clades ≠ [] →
        ∀ cpt ∈ nameComps x.name, (List.lookup cpt ld).isSome = true) ?_ ?_ ?_
  · intro i n b cf lb cs ih u' hu x hx hxt cpt hcpt
    cases cs with
    | nil =>
      rw [allNodes_eq] at hx
      simp only [PClade.clades_mk, forestNodes_nil] at hx
      rcases List.mem_cons.mp hx with hx | hx
      · subst hx
        simp at hxt
      · cases hx
    | cons d ds =>
      rw [annotateInternals_node] at hu
      rw [allNodes_eq] at hx
      simp only [PClade.clades_mk] at hx
      rcases List.mem_cons.mp hx with heq | hmem
      · subst heq
        simp only [PClade.name_mk] at hcpt
        cases hn : n with
        | none => rw [hn] at hcpt; simp at hcpt
        | some s =>
          rw [hn] at hcpt hu
          simp only [nameComps_some] at hcpt
          simp only at hu
          rcases hl : lookupConcat ld (pySplit s) with el | v
          · rw [hl] at hu; simp at hu
          · have := lookupConcat_ok_implies (pySplit s) v hl cpt hcpt
            rw [this]
      · clear hx
        cases n with
        | none =>
          simp only at hu
          rcases hcs : annotateInternalsL ld (d :: ds) with ecs | cs'
          · rw [hcs] at hu; simp at hu
          · exact ih cs' hcs x hmem hxt cpt hcpt
        | some s =>
          simp only at hu
          rcases hl : lookupConcat ld (pySplit s) with el | v
          · rw [hl] at hu; simp at hu
          · rw [hl] at hu
            simp only at hu
            rcases hcs : annotateInternalsL ld (d :: ds) with ecs | cs'
            · rw [hcs] at hu; simp at hu
            · exact ih cs' hcs x hmem hxt cpt hcpt
  · intro cs' h x hx
    cases hx
  · intro c cs ihc ihcs cs' h x hx hxt cpt hcpt
    rw [annotateInternalsL_cons] at h
    rcases hc : annotateInternals ld c with ec | c'
    · rw [hc] at h; simp at h
    · rw [hc] at h
      rcases hcs : annotateInternalsL ld cs with ecs | cs2
      · rw [hcs] at h; simp at h
      · simp only [forestNodes_cons, List.mem_append] at hx
        rcases hx with hx | hx
        · exact ihc c' hc x hx hxt cpt hcpt
        · exact ihcs cs2 hcs x hx hxt cpt hcpt

/-- A tree whose tip 1 is unnamed (absent from any label table) and pruned
in Pass 1, while tip 2 carries the table key "B". -/
def exC7r : PClade :=
  .mk 0 none none none []
    [.mk 1 none (some (mkRat 1 4)) none [] [],
     .mk 2 (some "B") (some (mkRat 1 1)) none [] []]

/-- The collapse of `exC7r` at `minlen = 1/2`. -/
def exC7t1 : PClade :=
  .mk 0 none none none [] [.mk 2 (some "B") (some (mkRat 1 1)) none [] []]

/-- A label table containing only the key "B". -/
def exC7ld : List (String × List String) := [("B", ["B|b1|r|c|2021-01-01"])]

/-- C7: when `annotate_tree` runs on a tree with tip identifiers absent
from the label table, the validation step is soft: the mismatch flag is
computed but processing continues, and annotation succeeds whenever every
name component of the collapsed tree resolves in the table (first
conjunct).  But every later per-node lookup of an identifier absent from
the table is a hard failure: if any node of the collapsed tree has a name
component missing from the table, `annotate_tree` raises the missing-label
`KeyError` — it never skips or substitutes (second conjunct). -/
theorem annotate_mismatch_soft_lookup_hard
    (ld : List (String × List String)) (minlen : ℚ) (t t1 : PClade)
    (hc : collapse_polytomies minlen t = .ok t1)
    (hnm : ∀ x ∈ allNodes t1, x.clades = [] → x.name ≠ none) :
    ((∀ x ∈ allNodes t1, ∀ cpt ∈ nameComps x.name,
        (List.lookup cpt ld).isSome = true) →
      ∃ r, annotate_tree ld minlen t = .ok (mismatchFlag ld t, r)) ∧
    ((∃ x ∈ allNodes t1, ∃ cpt ∈ nameComps x.name, List.lookup cpt ld = none) →
      annotate_tree ld minlen t = .error .keyError) := by
  constructor
  · intro hall
    obtain ⟨t2, ht2⟩ := annotateTips_ok_of ld t1 hnm
      (fun x hx _ cpt hcpt => hall x hx cpt hcpt)
    obtain ⟨t3, ht3⟩ := annotateInternals_ok_of ld t2 (by
      intro x hx hxt cpt hcpt
      obtain ⟨y, hy, _, hname, _⟩ := (annotateTips_shape ld t1 t2 ht2).1 x hx
      refine hall y hy cpt ?_
      rw [hname]
      exact hcpt)
    refine ⟨t3, ?_⟩
    simp only [annotate_tree, hc, ht2, ht3]
  · intro hmiss
    obtain ⟨x, hx, cpt, hcpt, hnone⟩ := hmiss
    rcases ht2 : annotateTips ld t1 with e2 | t2
    · have he := annotateTips_err ld t1 hnm e2 ht2
      subst he
      simp only [annotate_tree, hc, ht2]
    · by_cases hterm : x.clades = []
      · have hs := annotateTips_ok_implies ld t1 t2 ht2 x hx hterm cpt hcpt
        rw [hnone] at hs
        simp at hs
      · obtain ⟨x', hx', _, hname, hiff⟩ := (annotateTips_shape ld t1 t2 ht2).2 x hx
        have hx't : x'.clades ≠ [] := fun h => hterm (hiff.mpr h)
        rcases ht3 : annotateInternals ld t2 with e3 | t3
        · have he := annotateInternals_err ld t2 e3 ht3
          subst he
          simp only [annotate_tree, hc, ht2, ht3]
        · have hs := annotateInternals_ok_implies ld t2 t3 ht3 x' hx' hx't cpt (by
            rw [← hname]; exact hcpt)
          rw [hnone] at hs
          simp at hs

/-- Concrete instance of C7: `exC7r` has an unnamed tip, so the mismatch
flag is raised, yet annotation proceeds and succeeds (soft validation). -/
theorem annotate_mismatch_soft_lookup_hard_witness :
    mismatchFlag exC7ld exC7r = true ∧
    ∃ r, annotate_tree exC7ld (mkRat 1 2) exC7r = .ok (mismatchFlag exC7ld exC7r, r) := by
  constructor
  · decide
  · exact (annotate_mismatch_soft_lookup_hard exC7ld (mkRat 1 2) exC7r exC7t1
      (by decide) (by decide)).1 (by decide)

/-- Association-list lookup on a cons cell. -/
theorem lookupConsEq {κ α : Type} [DecidableEq κ] (k a : κ) (b : α) (m : List (κ × α)) :
    ((a, b) :: m).lookup k = if k = a then some b else m.lookup k := by
  rw [List.lookup]
  by_cases h : k = a
  · have hb : (k == a) = true := by simp [h]
    rw [hb, if_pos h]
  · have hb : (k == a) = false := by simp [h]
    rw [hb, if_neg h]

/-- A key held by no entry of an association list looks up to `none`. -/
theorem lookup_none_of_keys_ne {κ α : Type} [DecidableEq κ] (k : κ) :
    ∀ m : List (κ × α), (∀ p ∈ m, p.1 ≠ k) → m.lookup k = none := by
  intro m
  induction m with
  | nil => intro _; rfl
  | cons q m ih =>
    intro h
    obtain ⟨a, b⟩ := q
    have ha : a ≠ k := h (a, b) (List.mem_cons_self _ _)
    rw [lookupConsEq, if_neg (fun he => ha he.symm)]
    exact ih (fun p hp => h p (List.mem_cons.mpr (Or.inr hp)))

/-- A successful lookup survives appending further entries. -/
theorem lookup_append_some {κ α : Type} [DecidableEq κ] (k : κ) (v : α) :
    ∀ m m2 : List (κ × α), m.lookup k = some v → (m ++ m2).lookup k = some v := by
  intro m m2
  induction m with
  | nil => intro h; simp [List.lookup] at h
  | cons q m ih =>
    intro h
    obtain ⟨a, b⟩ := q
    rw [lookupConsEq] at h
    rw [List.cons_append, lookupConsEq]
    by_cases hka : k = a
    · rw [if_pos hka] at h ⊢; exact h
    · rw [if_neg hka] at h ⊢; exact ih h

/-- A failed lookup falls through to the appended entries. -/
theorem lookup_append_none {κ α : Type} [DecidableEq κ] (k : κ) :
    ∀ m m2 : List (κ × α), m.lookup k = none → (m ++ m2).lookup k = m2.lookup k := by
  intro m m2
  induction m with
  | nil => intro _; rfl
  | cons q m ih =>
    intro h
    obtain ⟨a, b⟩ := q
    rw [lookupConsEq] at h
    rw [List.cons_append, lookupConsEq]
    by_cases hka : k = a
    · rw [if_pos hka] at h; simp at h
    · rw [if_neg hka] at h ⊢; exact ih h

/-- Replacing the entries of one key leaves every other lookup alone. -/
theorem lookup_map_replace_ne {κ α : Type} [DecidableEq κ] (k k' : κ) (v' : α)
    (hne : k ≠ k') :
    ∀ m : List (κ × α),
      (m.map (fun p => if p.1 = k' then (k', v') else p)).lookup k = m.lookup k := by
  intro m
  induction m with
  | nil => rfl
  | cons q m ih =>
    obtain ⟨a, b⟩ := q
    rw [List.map_cons]
    by_cases ha : a = k'
    · subst ha
      rw [if_pos rfl]
      rw [lookupConsEq, lookupConsEq, if_neg hne, if_neg hne]
      exact ih
    · rw [if_neg ha]
      rw [lookupConsEq, lookupConsEq]
      by_cases hka : k = a
      · rw [if_pos hka, if_pos hka]
      · rw [if_neg hka, if_neg hka]
        exact ih

/-- `dUpdate` changes only the updated key. -/
theorem dUpdate_lookup_ne {κ α : Type} [DecidableEq κ] (k k' : κ) (v' : α)
    (hne : k ≠ k') (m : List (κ × α)) :
    (dUpdate m k' v').lookup k = m.lookup k := by
  rw [dUpdate]
  by_cases h : m.any (fun p => p.1 = k')
  · rw [if_pos h]
    exact lookup_map_replace_ne k k' v' hne m
  · rw [if_neg h]
    cases hm : m.lookup k with
    | some v => exact lookup_append_some k v m [(k', v')] hm
    | none =>
      rw [lookup_append_none k m [(k', v')] hm]
      rw [lookupConsEq, if_neg hne]
      rfl

/-- Updating a key absent from the map makes it look up to the new value. -/
theorem dUpdate_lookup_fresh {κ α : Type} [DecidableEq κ] (k' : κ) (v' : α)
    (m : List (κ × α)) (hf : ∀ p ∈ m, p.1 ≠ k') :
    (dUpdate m k' v').lookup k' = some v' := by
  rw [dUpdate]
  have hany : m.any (fun p => p.1 = k') = false := by
    rw [List.any_eq_false]
    intro p hp
    simp only [decide_eq_true_eq]
    exact hf p hp
  rw [hany]
  simp only [Bool.false_eq_true, if_false]
  rw [lookup_append_none k' m [(k', v')] (lookup_none_of_keys_ne k' m hf)]
  rw [lookupConsEq, if_pos rfl]

/-- Every entry of `dUpdate m k v` is either at the updated key or an
original entry. -/
theorem dUpdate_mem_keys {κ α : Type} [DecidableEq κ] (k' : κ) (v' : α)
    (m : List (κ × α)) :
    ∀ p ∈ dUpdate m k' v', p.1 = k' ∨ p ∈ m := by
  intro p hp
  rw [dUpdate] at hp
  by_cases h : m.any (fun q => q.1 = k')
  · rw [if_pos h] at hp
    obtain ⟨q, hq, hfq⟩ := List.mem_map.mp hp
    by_cases hk : q.1 = k'
    · rw [if_pos hk] at hfq
      left
      rw [← hfq]
    · rw [if_neg hk] at hfq
      right
      rw [← hfq]
      exact hq
  · rw [if_neg h] at hp
    rcases List.mem_append.mp hp with hp | hp
    · right; exact hp
    · left
      simp only [List.mem_singleton] at hp
      rw [hp]

/-- One serialization step extends `variant_d` at exactly the current
node, bumps the unsampled counter exactly when the node has no labels,
and in that case assigns the identifier `unsampled{count}`. -/
theorem serializeStep_shape (rootId : Nat) (parents : List (Nat × Nat)) (nd : PClade)
    (st st1 : SState) (h : serializeStep rootId parents nd st = .ok st1) :
    ∃ variant, st1.vard = dUpdate st.vard nd.nid variant ∧
      st1.us = (if nd.labels.isEmpty then st.us + 1 else st.us) ∧
      (nd.labels.isEmpty = true → variant = "unsampled" ++ toString st.us) := by
  rw [serializeStep] at h
  by_cases hl : nd.labels.isEmpty
  · rw [if_pos hl] at h
    simp only at h
    by_cases hr : nd.nid = rootId
    · rw [if_pos hr] at h
      injection h with h
      refine ⟨"unsampled" ++ toString st.us, ?_, ?_, fun _ => rfl⟩
      · rw [← h]
      · rw [← h]
    · rw [if_neg hr] at h
      rcases hp : parents.lookup nd.nid with _ | pid
      · rw [hp] at h; simp at h
      · rw [hp] at h
        simp only at h
        rcases hv : (dUpdate st.vard nd.nid ("unsampled" ++ toString st.us)).lookup pid with _ | pvar
        · rw [hv] at h; simp at h
        · rw [hv] at h
          simp only at h
          rcases hb : nd.branch_length with _ | b
          · rw [hb] at h; simp at h
          · rw [hb] at h
            simp only at h
            injection h with h
            refine ⟨"unsampled" ++ toString st.us, ?_, ?_, fun _ => rfl⟩
            · rw [← h]
            · rw [← h]
  · rw [if_neg hl] at h
    rcases hs : isortLS (nd.labels.map (fun l => (pySplit l).reverse)) with _ | ⟨first, rest⟩
    · rw [hs] at h; simp at h
    · rw [hs] at h
      simp only at h
      rcases hg : first.get? 3 with _ | variant
      · rw [hg] at h; simp at h
      · rw [hg] at h
        simp only at h
        by_cases hr : nd.nid = rootId
        · rw [if_pos hr] at h
          injection h with h
          refine ⟨variant, ?_, ?_, fun hc => absurd hc hl⟩
          · rw [← h]
          · rw [← h]
        · rw [if_neg hr] at h
          rcases hp : parents.lookup nd.nid with _ | pid
          · rw [hp] at h; simp at h
          · rw [hp] at h
            simp only at h
            rcases hv : (dUpdate st.vard nd.nid variant).lookup pid with _ | pvar
            · rw [hv] at h; simp at h
            · rw [hv] at h
              simp only at h
              rcases hb : nd.branch_length with _ | b
              · rw [hb] at h; simp at h
              · rw [hb] at h
                simp only at h
                injection h with h
                refine ⟨variant, ?_, ?_, fun hc => absurd hc hl⟩
                · rw [← h]
                · rw [← h]

/-- The serialization loop never disturbs the `variant_d` entry of a node
that is not in the remaining work list. -/
theorem serializeGo_vard_preserve (rootId : Nat) (parents : List (Nat × Nat)) :
    ∀ l : List PClade, ∀ st st' : SState, ∀ k : Nat, ∀ v : String,
      serializeGo rootId parents l st = .ok st' →
      (∀ nd ∈ l, nd.nid ≠ k) →
      st.vard.lookup k = some v → st'.vard.lookup k = some v := by
  intro l
  induction l with
  | nil =>
    intro st st' k v h _ hv
    rw [serializeGo] at h
    injection h with h
    rw [← h]
    exact hv
  | cons nd rest ih =>
    intro st st' k v h hfr hv
    rw [serializeGo] at h
    rcases hs : serializeStep rootId parents nd st with e | st1
    · rw [hs] at h; simp at h
    · rw [hs] at h
      simp only at h
      obtain ⟨variant, hvard, _, _⟩ := serializeStep_shape rootId parents nd st st1 hs
      refine ih st1 st' k v h (fun x hx => hfr x (List.mem_cons.mpr (Or.inr hx))) ?_
      rw [hvard]
      rw [dUpdate_lookup_ne k nd.nid variant
        (fun he => hfr nd (List.mem_cons_self _ _) he.symm) st.vard]
      exact hv

/-- Invariant of the serialization loop: under distinct node identities,
every label-less node at position `i` of the work list ends up mapped to
`unsampled{N}` where `N` is the running counter plus the number of
label-less nodes strictly before position `i`. -/
theorem serializeGo_unsampled (rootId : Nat) (parents : List (Nat × Nat)) :
    ∀ l : List PClade, ∀ st st' : SState,
      serializeGo rootId parents l st = .ok st' →
      (l.map PClade.nid).Nodup →
      (∀ nd ∈ l, ∀ p ∈ st.vard, p.1 ≠ nd.nid) →
      ∀ i (hi : i < l.length), (l.get ⟨i, hi⟩).labels = [] →
        st'.vard.lookup ((l.get ⟨i, hi⟩).nid) =
          some ("unsampled" ++ toString (st.us + (l.take i).countP (fun x => x.labels.isEmpty))) := by
  intro l
  induction l with
  | nil =>
    intro st st' _ _ _ i hi
    exact absurd hi (by simp)
  | cons nd rest ih =>
    intro st st' h hnd hfr i hi hlab
    rw [serializeGo] at h
    rcases hs : serializeStep rootId parents nd st with e | st1
    · rw [hs] at h; simp at h
    · rw [hs] at h
      simp only at h
      obtain ⟨variant, hvard, hus, hvar⟩ := serializeStep_shape rootId parents nd st st1 hs
      rw [List.map_cons, List.nodup_cons] at hnd
      obtain ⟨hnotin, hnd'⟩ := hnd
      cases i with
      | zero =>
        simp only [List.get] at hlab ⊢
        rw [List.take_zero, List.countP_nil, Nat.add_zero]
        have hE : nd.labels.isEmpty = true := by
          rw [hlab]; rfl
        have hfirst : st1.vard.lookup nd.nid = some ("unsampled" ++ toString st.us) := by
          rw [hvard, hvar hE]
          exact dUpdate_lookup_fresh nd.nid _ st.vard
            (hfr nd (List.mem_cons_self _ _))
        refine serializeGo_vard_preserve rootId parents rest st1 st' nd.nid _ h ?_ hfirst
        intro x hx he
        exact hnotin (List.mem_map.mpr ⟨x, hx, he⟩)
      | succ j =>
        have hj : j < rest.length := Nat.lt_of_succ_lt_succ hi
        have hget : (nd :: rest).get ⟨j + 1, hi⟩ = rest.get ⟨j, hj⟩ := rfl
        rw [hget] at hlab ⊢
        have hfr1 : ∀ x ∈ rest, ∀ p ∈ st1.vard, p.1 ≠ x.nid := by
          intro x hx p hp
          rw [hvard] at hp
          rcases dUpdate_mem_keys nd.nid variant st.vard p hp with hk | hk
          · rw [hk]
            intro he
            exact hnotin (List.mem_map.mpr ⟨x, hx, he.symm⟩)
          · exact hfr x (List.mem_cons.mpr (Or.inr hx)) p hk
        have hmain := ih st1 st' h hnd' hfr1 j hj hlab
        rw [hmain]
        have hcount : st.us + ((nd :: rest).take (j + 1)).countP (fun x => x.labels.isEmpty) =
            st1.us + (rest.take j).countP (fun x => x.labels.isEmpty) := by
          rw [List.take_succ_cons, List.countP_cons, hus]
          cases hE : nd.labels.isEmpty with
          | false => simp [hE]
          | true => simp [hE]; omega
        rw [hcount]

/-- C9: during serialization every node with empty `labels` is assigned
the identifier `unsampled{N}` where `N` is a zero-based counter that
increments once per such node in level-order traversal: the identifier
recorded in `variant_d` for the `i`-th level-order node, when that node is
label-less, is `unsampled` followed by the number of label-less nodes
among the first `i` level-order nodes. -/
theorem serialize_unsampled_numbering (t : PClade) (st1 : SState)
    (hnd : ((levelOrder t).map PClade.nid).Nodup)
    (hok : serialize_full t = .ok st1)
    (i : Nat) (hi : i < (levelOrder t).length)
    (hlab : ((levelOrder t).get ⟨i, hi⟩).labels = []) :
    st1.vard.lookup (((levelOrder t).get ⟨i, hi⟩).nid) =
      some ("unsampled" ++
        toString (((levelOrder t).take i).countP (fun x => x.labels.isEmpty))) := by
  rw [serialize_full] at hok
  have h := serializeGo_unsampled t.nid (get_parents t) (levelOrder t) ⟨[], [], [], 0⟩ st1
    hok hnd (fun nd _ p hp => absurd hp (List.not_mem_nil p)) i hi hlab
  simpa using h

/-- Concrete instance of C9: on `exC9r` the three label-less nodes met in
level order (ids 0, 1, 2) receive `unsampled0`, `unsampled1`,
`unsampled2` in that order. -/
theorem serialize_unsampled_numbering_witness :
    serialize_full exC9r = .ok exC9st ∧
    exC9st.vard.lookup 0 = some "unsampled0" ∧
    exC9st.vard.lookup 1 = some "unsampled1" ∧
    exC9st.vard.lookup 2 = some "unsampled2" := by
  refine ⟨by decide, ?_, ?_, ?_⟩
  · exact serialize_unsampled_numbering exC9r exC9st (by decide) (by decide) 0 (by decide)
      (by decide)
  · exact serialize_unsampled_numbering exC9r exC9st (by decide) (by decide) 1 (by decide)
      (by decide)
  · exact serialize_unsampled_numbering exC9r exC9st (by decide) (by decide) 2 (by decide)
      (by decide)
